import Mathlib

/-!
Verification of the @replaces-directive overlay generator ("Replacer") from
the graphqltools package (replaces_directive.go), as a shallow embedding.

The schema model mirrors the gqlparser AST types that the Go code reads and
builds (ast.Definition, ast.FieldDefinition, ast.ArgumentDefinition,
ast.EnumValueDefinition, ast.Directive, ast.Argument, ast.Value, ast.Type).
Go maps are embedded as association lists (key order is the insertion order;
the code only iterates map keys after collecting and sorting them, which the
embedding mirrors).  Go pointer mutation matters in exactly one place, the
definitions stage of getSchemaAdditions, where writes through the cloned
definition's EnumValues slice land in the input definition's backing array;
the embedding returns that effect explicitly (see _synthesizeDefinition).
-/

/-! ## Generic helpers: association lists, sorting, string utilities -/

/-- First value stored under a key in an association list (Go map read). -/
def lookupAssoc {α : Type} (m : List (String × α)) (k : String) : Option α :=
  match m with
  | [] => none
  | (k', v) :: rest => if k' = k then some v else lookupAssoc rest k

/-- Keys of an association list, in insertion order (Go map key range,
before the sorting the source code always performs). -/
def assocKeys {α : Type} (m : List (String × α)) : List String :=
  m.map Prod.fst

/-- Go `m[k] = append(m[k], v)` on a map of slices: extend the entry for `k`,
creating it if absent. -/
def assocAppend {α : Type} (m : List (String × List α)) (k : String) (v : α) :
    List (String × List α) :=
  match m with
  | [] => [(k, [v])]
  | (k', vs) :: rest =>
      if k' = k then (k', vs ++ [v]) :: rest else (k', vs) :: assocAppend rest k v

/-- Go `m[k] = v` on a map: overwrite the entry for `k`, creating it if
absent. -/
def assocSet {α : Type} (m : List (String × α)) (k : String) (v : α) :
    List (String × α) :=
  match m with
  | [] => [(k, v)]
  | (k', v') :: rest =>
      if k' = k then (k', v) :: rest else (k', v') :: assocSet rest k v

/-- Codepoint-lexicographic comparison of char lists.  For UTF-8 strings this
is the same order as Go's byte-wise string comparison, which the source uses
through sort.Slice / sort.Strings. -/
def charListLe : List Char → List Char → Bool
  | [], _ => true
  | _ :: _, [] => false
  | a :: as, b :: bs => if a = b then charListLe as bs else decide (a.toNat < b.toNat)

/-- String comparison used by the sorting steps of the synthesis. -/
def strLe (a b : String) : Bool :=
  charListLe a.toList b.toList

/-- Insert into a sorted list, keeping earlier elements ahead on ties. -/
def insertLe {α : Type} (le : α → α → Bool) (a : α) : List α → List α
  | [] => [a]
  | b :: l => if le a b then a :: b :: l else b :: insertLe le a l

/-- Stable insertion sort.  Models Go's sort.Slice / sort.Strings calls in
getSchemaAdditions; Go's algorithm is unspecified on ties, but on the small
slices involved it falls back to insertion sort, whose tie behavior this
definition reproduces. -/
def sortLe {α : Type} (le : α → α → Bool) : List α → List α
  | [] => []
  | a :: l => insertLe le a (sortLe le l)

/-- Concatenate with a separator (used only by the formatter model). -/
def joinSep (sep : String) : List String → String
  | [] => ""
  | [s] => s
  | s :: rest => s ++ sep ++ joinSep sep rest

/-- Word characters of the regexp escape used by _containsExactWord and
_replaceExactWord (Go regexp word boundary): letters, digits, underscore. -/
def isWordChar (c : Char) : Bool :=
  c.isAlphanum || c = '_'

/-- Does `word` begin at the head of `text`? -/
def beginsWith : List Char → List Char → Bool
  | [], _ => true
  | _ :: _, [] => false
  | w :: ws, t :: ts => w = t && beginsWith ws ts

/-- Word boundary to the left of a match: start of text or a non-word char. -/
def boundaryL : Option Char → Bool
  | none => true
  | some c => !isWordChar c

/-- Word boundary to the right of a match: end of text or a non-word char. -/
def boundaryR : List Char → Bool
  | [] => true
  | c :: _ => !isWordChar c

/-- `word` matches at the head of `text` with a right word boundary. -/
def matchAt (word text : List Char) : Bool :=
  beginsWith word text && boundaryR (text.drop word.length)

/-- Scan for a whole-word occurrence; `prev` is the char before the current
position (none at the start of text). -/
def containsWordAux (word : List Char) : Option Char → List Char → Bool
  | _, [] => false
  | prev, c :: rest =>
      (boundaryL prev && matchAt word (c :: rest)) || containsWordAux word (some c) rest

/-- Replace every non-overlapping whole-word occurrence, scanning left to
right (Go regexp ReplaceAllString).  `word` is a GraphQL name, hence nonempty
and made of word characters, so the regexp word boundaries degenerate to the
checks `boundaryL`/`boundaryR` implement.  The Nat argument is recursion
fuel (each step consumes at least one character, and a nonempty word match
consumes word.length of them, so text-length fuel always suffices); it only
makes the recursion structural and carries no meaning of its own. -/
def replaceWordAux (word repl : List Char) : Nat → Option Char → List Char → List Char
  | 0, _, text => text
  | _ + 1, _, [] => []
  | fuel + 1, prev, c :: rest =>
      if (boundaryL prev && matchAt word (c :: rest)) && !word.isEmpty then
        repl ++ replaceWordAux word repl fuel word.getLast? ((c :: rest).drop word.length)
      else
        c :: replaceWordAux word repl fuel (some c) rest

/-- Go _containsExactWord: whether `word` appears as a whole regexp word
(\bword\b) inside `text`. -/
def _containsExactWord (text word : String) : Bool :=
  containsWordAux word.toList none text.toList

/-- Go _replaceExactWord: replace whole-word occurrences of `word` inside
`text` by `replacement`. -/
def _replaceExactWord (text word replacement : String) : String :=
  ⟨replaceWordAux word.toList replacement.toList text.toList.length none text.toList⟩

/-- Go strings.Title as applied to a GraphQL field name (a single
identifier): upper-case the first character. -/
def titleWord (s : String) : String :=
  match s.toList with
  | [] => ""
  | c :: rest => ⟨(if c.toNat ≥ 97 && c.toNat ≤ 122 then Char.ofNat (c.toNat - 32) else c) :: rest⟩

/-- Go strings.ReplaceAll(s, "\t", "    "): expand tabs to four spaces. -/
def expandTabs (s : String) : String :=
  ⟨s.toList.flatMap (fun c => if c = '\t' then [' ', ' ', ' ', ' '] else [c])⟩

/-! ## Schema model (gqlparser AST as read and built by the Go code) -/

namespace ast

/-- ast.Value: only the raw text and whether it is a string literal matter to
this code. -/
structure Value where
  Raw : String
  Kind : String
deriving DecidableEq

/-- Kind constant for string literals (ast.StringValue). -/
def StringValue : String := "StringValue"

/-- ast.Argument on a directive. -/
structure Argument where
  Name : String
  Value : Value
deriving DecidableEq

/-- ast.Directive. -/
structure Directive where
  Name : String
  Arguments : List Argument
deriving DecidableEq

/-- ast.DirectiveList. -/
abbrev DirectiveList := List Directive

/-- ast.Type is a struct with fields NamedType (string), Elem (pointer) and
NonNull; per the comment block on the Go helper _isNonListField, exactly one
of NamedType and Elem is set: a non-list type has a non-zero NamedType and a
nil Elem, a list type has an empty NamedType and a non-nil Elem.  The
embedding realizes the two shapes as two constructors; the Go fields are
recovered by the accessors below.  The degenerate value with both fields
zero (which Go code would nil-dereference) is represented by `named "" nn`. -/
inductive Typ : Type where
  | named : (NamedType : String) → (NonNull : Bool) → Typ
  | list : (Elem : Typ) → (NonNull : Bool) → Typ
deriving DecidableEq

def Typ.NamedType : Typ → String
  | .named n _ => n
  | .list _ _ => ""

def Typ.Elem : Typ → Option Typ
  | .named _ _ => none
  | .list e _ => some e

def Typ.NonNull : Typ → Bool
  | .named _ nn => nn
  | .list _ nn => nn

/-- ast.ArgumentDefinition on a field. -/
structure ArgumentDefinition where
  Name : String
  Directives : DirectiveList
  Typ : Typ
deriving DecidableEq

/-- ast.FieldDefinition. -/
structure FieldDefinition where
  Name : String
  Description : String
  Directives : DirectiveList
  Arguments : List ArgumentDefinition
  Typ : Typ
deriving DecidableEq

/-- ast.EnumValueDefinition. -/
structure EnumValueDefinition where
  Name : String
  Description : String
  Directives : DirectiveList
deriving DecidableEq

/-- ast.DefinitionKind is a string type in gqlparser. -/
abbrev DefinitionKind := String

def Object : DefinitionKind := "OBJECT"
def InputObject : DefinitionKind := "INPUT_OBJECT"
def Interface : DefinitionKind := "INTERFACE"
def Union : DefinitionKind := "UNION"
def Enum : DefinitionKind := "ENUM"
def Scalar : DefinitionKind := "SCALAR"

/-- ast.Definition.  `HasExtendSource` stands for the result of the Go
helper _definitionHasExtends(definition): that helper inspects the raw
source text before Definition.Position with the regexp
\bextend[ \t]+\w+\s+$ to decide whether the declaration used the "extend"
keyword; the position and source text are not part of the schema tree the
rest of the code consumes, so the embedding carries the detection result. -/
structure Definition where
  Kind : DefinitionKind
  Name : String
  Description : String
  Directives : DirectiveList
  Fields : List FieldDefinition
  EnumValues : List EnumValueDefinition
  Interfaces : List String
  Types : List String
  HasExtendSource : Bool
deriving DecidableEq

end ast

/-- _definitionHasExtends: lexical extend detection; see
ast.Definition.HasExtendSource for how the source-text heuristic is carried
by the embedding. -/
def _definitionHasExtends (definition : ast.Definition) : Bool :=
  definition.HasExtendSource

/-! ## Marker extraction (GetReplaceInfo) -/

/-- The error kinds of the errors/kind package used by this file. -/
inductive ErrKind : Type where
  | notFound
  | internal
  | invalidInput
deriving DecidableEq

/-- An error as accumulated by the Replacer: a kind plus its message. -/
structure RErr where
  kind : ErrKind
  message : String
deriving DecidableEq

/-- Go type ReplaceInfo. -/
structure ReplaceInfo where
  OldName : String
  OldTypeName : String
  WasRequiredBeforeRename : Bool
  TreatZeroAsUnset : Bool
  TreatZeroAsUnsetPresent : Bool
deriving DecidableEq

/-- ast.DirectiveList.ForName: first directive with the given name. -/
def forNameDirective (directives : ast.DirectiveList) (name : String) : Option ast.Directive :=
  directives.find? (fun d => d.Name = name)

/-- ast.ArgumentList.ForName: first argument with the given name. -/
def forNameArgument (arguments : List ast.Argument) (name : String) : Option ast.Argument :=
  arguments.find? (fun a => a.Name = name)

/-- Go GetReplaceInfo: extract the @replaces marker from a directive list.
Absence is the NotFound sentinel; a marker without a name argument is an
Internal error. -/
def GetReplaceInfo (directives : ast.DirectiveList) : Except RErr ReplaceInfo :=
  match forNameDirective directives "replaces" with
  | none => .error ⟨.notFound, "not found"⟩
  | some directive =>
    match forNameArgument directive.Arguments "name" with
    | none => .error ⟨.internal, "name required on @replaces directive"⟩
    | some arg =>
      let replaceInfo : ReplaceInfo :=
        { OldName := arg.Value.Raw
          OldTypeName := ""
          WasRequiredBeforeRename := false
          TreatZeroAsUnset := false
          TreatZeroAsUnsetPresent := false }
      let replaceInfo :=
        match forNameArgument directive.Arguments "type" with
        | some a => { replaceInfo with OldTypeName := a.Value.Raw }
        | none => replaceInfo
      let replaceInfo :=
        match forNameArgument directive.Arguments "wasRequiredBeforeRename" with
        | some a => { replaceInfo with WasRequiredBeforeRename := a.Value.Raw = "true" }
        | none => replaceInfo
      let replaceInfo :=
        match forNameArgument directive.Arguments "treatZeroAsUnset" with
        | some a =>
            { replaceInfo with
                TreatZeroAsUnset := a.Value.Raw = "true"
                TreatZeroAsUnsetPresent := true }
        | none => replaceInfo
      .ok replaceInfo

/-! ## Replacer state and index construction (processSchema) -/

/-- Go type _definitionInfo. -/
structure _definitionInfo where
  definition : ast.Definition
  oldName : String
deriving DecidableEq

/-- Go type _fieldInfo. -/
structure _fieldInfo where
  field : ast.FieldDefinition
  oldName : String
  oldTypeName : String
deriving DecidableEq

/-- Go type _enumValueInfo. -/
structure _enumValueInfo where
  enumValue : ast.EnumValueDefinition
  newName : String
  oldName : String
deriving DecidableEq

/-- Go type Replacer.  The Go map-typed fields are embedded as association
lists keyed by the same strings; see the module comment. -/
structure Replacer where
  errors : List RErr
  fields : List (String × List _fieldInfo)
  definitions : List _definitionInfo
  enumValues : List (String × List _enumValueInfo)
  extraImplements : List (String × List String)
  extraUnionMembers : List (String × List String)
  cacheReplacedTypes : List (String × String)
  definitionKinds : List (String × ast.DefinitionKind)
  federationKeys : List (String × List String)
  hasProcessedSchema : Bool
deriving DecidableEq

/-- Go NewReplacer. -/
def NewReplacer : Replacer :=
  { errors := []
    fields := []
    definitions := []
    enumValues := []
    extraImplements := []
    extraUnionMembers := []
    cacheReplacedTypes := []
    definitionKinds := []
    federationKeys := []
    hasProcessedSchema := false }

/-- Go method Replacer.getReplaceInfo: absence of the marker is silent, any
other extraction error is accumulated. -/
def Replacer.getReplaceInfo (r : Replacer) (directives : ast.DirectiveList) :
    Option ReplaceInfo × Replacer :=
  match GetReplaceInfo directives with
  | .error e => if e.kind = .notFound then (none, r) else (none, { r with errors := r.errors ++ [e] })
  | .ok replaceInfo => (some replaceInfo, r)

/-- Go _isNonListField. -/
def _isNonListField (field : ast.FieldDefinition) : Bool :=
  field.Typ.NamedType ≠ ""

/-- The body of the argument check inside Replacer._processField for an
unmarked field: a marked argument is an (Internal) error. -/
def _argScanStep (typeName fieldName : String) (r : Replacer)
    (arg : ast.ArgumentDefinition) : Replacer :=
  match r.getReplaceInfo arg.Directives with
  | (some _, r) =>
      { r with
          errors := r.errors ++
            [⟨.internal,
              "@replaces directive on arguments can only be used on renamed fields; type=" ++
                typeName ++ " field=" ++ fieldName ++ " argument=" ++ arg.Name⟩] }
  | (none, r) => r

/-- Go Replacer._processField. -/
def _processField (r : Replacer) (typeName : String) (definitionKind : ast.DefinitionKind)
    (field : ast.FieldDefinition) : Replacer :=
  match r.getReplaceInfo field.Directives with
  | (none, r) =>
      -- Verify that none of the arguments are renamed.
      field.Arguments.foldl (_argScanStep typeName field.Name) r
  | (some replaceInfo, r) =>
      let r :=
        if definitionKind = ast.InputObject then
          let r :=
            if field.Typ.NonNull then
              { r with
                  errors := r.errors ++
                    [⟨.invalidInput,
                      "input fields using the @replaces directive must be nullable; type=" ++
                        typeName ++ " field=" ++ field.Name⟩] }
            else r
          if _isNonListField field && !replaceInfo.TreatZeroAsUnsetPresent then
            { r with
                errors := r.errors ++
                  [⟨.invalidInput,
                    "@replaces directive on non-list input fields must include treatZeroAsUnset:true or treatZeroAsUnset:false; type=" ++
                      typeName ++ " field=" ++ field.Name⟩] }
          else r
        else r
      { r with
          fields := assocAppend r.fields typeName
            { field := field
              oldName := replaceInfo.OldName
              oldTypeName := replaceInfo.OldTypeName } }

/-- Go Replacer._processEnumValue. -/
def _processEnumValue (r : Replacer) (enumName : String)
    (enumValue : ast.EnumValueDefinition) : Replacer :=
  match r.getReplaceInfo enumValue.Directives with
  | (none, r) => r
  | (some replaceInfo, r) =>
      let r :=
        if replaceInfo.OldTypeName ≠ "" then
          { r with
              errors := r.errors ++
                [⟨.invalidInput,
                  "@replaces directive on enum values can only use `name` argument; enum=" ++
                    enumName ++ " enumValue=" ++ enumValue.Name⟩] }
        else r
      { r with
          enumValues := assocAppend r.enumValues enumName
            { enumValue := enumValue
              newName := enumValue.Name
              oldName := replaceInfo.OldName } }

/-- Go _getFederationKeys: raw values of the fields arguments of all @key
directives on a definition. -/
def _getFederationKeys (def_ : ast.Definition) : List String :=
  def_.Directives.flatMap
    (fun directive =>
      if directive.Name = "key" then
        directive.Arguments.filterMap
          (fun arg => if arg.Name = "fields" then some arg.Value.Raw else none)
      else [])

/-- Go Replacer._processDefinition.  Note: a type override on the marker is
an accumulated error, but the definition is still recorded into both
`definitions` and `cacheReplacedTypes` (the Go code does not return after
appending the error). -/
def _processDefinition (r : Replacer) (def_ : ast.Definition) : Replacer :=
  let r := { r with definitionKinds := assocSet r.definitionKinds def_.Name def_.Kind }
  let r := { r with federationKeys := assocSet r.federationKeys def_.Name (_getFederationKeys def_) }
  match r.getReplaceInfo def_.Directives with
  | (none, r) => r
  | (some replaceInfo, r) =>
      let r :=
        if replaceInfo.OldTypeName ≠ "" then
          { r with
              errors := r.errors ++
                [⟨.invalidInput,
                  "@replaces directive on definitions can only use `name` argument; definition=" ++
                    def_.Name⟩] }
        else r
      let newInfo : _definitionInfo := { definition := def_, oldName := replaceInfo.OldName }
      let r := { r with definitions := r.definitions ++ [newInfo] }
      { r with cacheReplacedTypes := assocSet r.cacheReplacedTypes def_.Name replaceInfo.OldName }

/-- Go Replacer._processInterfaceImplementation. -/
def _processInterfaceImplementation (r : Replacer) (objectName : String)
    (interfaceName : String) : Replacer :=
  match lookupAssoc r.cacheReplacedTypes interfaceName with
  | none => r
  | some oldName =>
      { r with extraImplements := assocAppend r.extraImplements objectName oldName }

/-- Go Replacer._processUnionMember. -/
def _processUnionMember (r : Replacer) (unionName : String) (memberName : String) : Replacer :=
  match lookupAssoc r.cacheReplacedTypes memberName with
  | none => r
  | some oldName =>
      { r with extraUnionMembers := assocAppend r.extraUnionMembers unionName oldName }

/-- The kind switch in the first loop of processSchema: walk the fields of
object-like definitions and the values of enums. -/
def _processSchemaPass1Members (r : Replacer) (definition : ast.Definition) : Replacer :=
  if definition.Kind = ast.Object ∨ definition.Kind = ast.InputObject ∨
      definition.Kind = ast.Interface then
    definition.Fields.foldl (fun r field => _processField r definition.Name definition.Kind field) r
  else if definition.Kind = ast.Enum then
    definition.EnumValues.foldl (fun r enumValue => _processEnumValue r definition.Name enumValue) r
  else r

/-- Pass-1 processing of a single definition: the body of the first loop of
processSchema. -/
def _processSchemaPass1Step (r : Replacer) (definition : ast.Definition) : Replacer :=
  _processSchemaPass1Members (_processDefinition r definition) definition

/-- Pass-2 processing of a single definition: the body of the second loop of
processSchema. -/
def _processSchemaPass2Step (r : Replacer) (definition : ast.Definition) : Replacer :=
  if definition.Kind = ast.Object then
    definition.Interfaces.foldl
      (fun r iface => _processInterfaceImplementation r definition.Name iface) r
  else if definition.Kind = ast.Union then
    definition.Types.foldl
      (fun r memberName => _processUnionMember r definition.Name memberName) r
  else r

/-- Go Replacer.processSchema.  The schema is passed as the list of its
top-level definitions in iteration order of the Go map schema.Types (that
order is arbitrary; the determinism analysis quantifies over it). -/
def processSchema (r : Replacer) (types : List ast.Definition) : Replacer :=
  if r.hasProcessedSchema then
    { r with errors := r.errors ++ [⟨.internal, "processSchema called multiple times"⟩] }
  else
    let r := { r with hasProcessedSchema := true }
    let r := types.foldl _processSchemaPass1Step r
    types.foldl _processSchemaPass2Step r

/-! ## Overlay synthesis (getSchemaAdditions) -/

/-- Go _removeReplacesDirective: directives without the @replaces marker (a
fresh list; the input list is not modified). -/
def _removeReplacesDirective (directives : ast.DirectiveList) : ast.DirectiveList :=
  directives.filter (fun directive => directive.Name ≠ "replaces")

/-- Go _addDeprecatedDirective: a fresh list extending the input with
@deprecated(reason: message). -/
def _addDeprecatedDirective (directives : ast.DirectiveList) (message : String) :
    ast.DirectiveList :=
  directives ++
    [{ Name := "deprecated"
       Arguments := [{ Name := "reason", Value := { Raw := message, Kind := ast.StringValue } }] }]

/-- Go _updateType: a new type with the same list/non-null shape as the
input but with the inner named type replaced.  On the degenerate value
`named "" nn` the Go code would dereference a nil Elem; the embedding
returns the value unchanged there (unreachable for well-formed types). -/
def _updateType : ast.Typ → String → ast.Typ
  | .named n nn, newTypeName => if n ≠ "" then .named newTypeName nn else .named "" nn
  | .list elem nn, newTypeName => .list (_updateType elem newTypeName) nn

/-- Definitions stage, one renamed definition (the body of the first loop of
getSchemaAdditions).  Returns ((emitted clone, emit-as-extension), input
definition after the loop).  The second component records the one real
mutation of the input tree: oldDefinition is a shallow struct copy of the
input definition, the loop over enum values writes each cleaned copy back
through oldDefinition.EnumValues[i], and that slice shares the input
definition's backing array (unlike Fields, which is re-made), so the cleaned
enum values land in the input definition as well. -/
def _synthesizeDefinition (definitionInfo : _definitionInfo) :
    (ast.Definition × Bool) × ast.Definition :=
  let hasExtend := _definitionHasExtends definitionInfo.definition
  let oldDefinition := definitionInfo.definition
  let deprecatedMessage := "Deprecated: Replaced by " ++ definitionInfo.definition.Name ++ "."
  let oldDefinition :=
    if oldDefinition.Description = "" then
      if !hasExtend then { oldDefinition with Description := deprecatedMessage }
      else oldDefinition
    else { oldDefinition with Description := oldDefinition.Description ++ "\n" ++ deprecatedMessage }
  let oldDefinition := { oldDefinition with Name := definitionInfo.oldName }
  let oldDefinition := { oldDefinition with Directives := _removeReplacesDirective oldDefinition.Directives }
  let newFields := definitionInfo.definition.Fields.map
    (fun field =>
      { field with
          Directives := _removeReplacesDirective field.Directives
          Arguments := field.Arguments.map
            (fun arg => { arg with Directives := _removeReplacesDirective arg.Directives }) })
  let oldDefinition := { oldDefinition with Fields := newFields }
  let newEnumValues := definitionInfo.definition.EnumValues.map
    (fun enumValue => { enumValue with Directives := _removeReplacesDirective enumValue.Directives })
  let oldDefinition := { oldDefinition with EnumValues := newEnumValues }
  let inputAfter := { definitionInfo.definition with EnumValues := newEnumValues }
  ((oldDefinition, hasExtend), inputAfter)

/-- Field stage, one argument of a renamed field: apply an argument rename
(only allowed on renamed fields); the accumulator carries the rebuilt
argument list and the Replacer (getReplaceInfo may accumulate errors). -/
def _oldFieldArgStep (acc : List ast.ArgumentDefinition × Replacer)
    (argument : ast.ArgumentDefinition) : List ast.ArgumentDefinition × Replacer :=
  match acc.2.getReplaceInfo argument.Directives with
  | (none, r') => (acc.1 ++ [argument], r')
  | (some replaceInfo, r') =>
      let oldArgument :=
        { argument with
            Name := replaceInfo.OldName
            Directives := _removeReplacesDirective argument.Directives }
      let oldArgument :=
        if replaceInfo.OldTypeName ≠ "" then
          { oldArgument with Typ := _updateType argument.Typ replaceInfo.OldTypeName }
        else oldArgument
      (acc.1 ++ [oldArgument], r')

/-- Field stage, one renamed field: build the old-named field emitted on a
type extension.  Mirrors the inner loop body of the field-updates section;
argument processing may accumulate errors through getReplaceInfo. -/
def _synthesizeOldField (r : Replacer) (newObjectName : String) (fieldInfo : _fieldInfo) :
    ast.FieldDefinition × Replacer :=
  let oldField := { fieldInfo.field with Name := fieldInfo.oldName }
  let oldField :=
    if fieldInfo.oldTypeName ≠ "" then
      { oldField with Typ := _updateType fieldInfo.field.Typ fieldInfo.oldTypeName }
    else oldField
  let argsAndR := fieldInfo.field.Arguments.foldl _oldFieldArgStep ([], r)
  let r := argsAndR.2
  let oldField := { oldField with Arguments := argsAndR.1 }
  let oldField := { oldField with Directives := _removeReplacesDirective oldField.Directives }
  let deprecatedMessage := "Replaced by " ++ fieldInfo.field.Name ++ "."
  -- The @deprecated directive is not valid on input fields.
  let oldField :=
    if (lookupAssoc r.definitionKinds newObjectName).getD "" ≠ ast.InputObject then
      { oldField with Directives := _addDeprecatedDirective oldField.Directives deprecatedMessage }
    else if oldField.Description = "" then
      { oldField with Description := "Deprecated: " ++ deprecatedMessage }
    else
      { oldField with Description := oldField.Description ++ "\nDeprecated: " ++ deprecatedMessage }
  let goFieldDirective : ast.Directive :=
    { Name := "goField"
      Arguments :=
        [{ Name := "name"
           Value := { Raw := "Deprecated" ++ titleWord fieldInfo.oldName, Kind := ast.StringValue } }] }
  ({ oldField with Directives := oldField.Directives ++ [goFieldDirective] }, r)

/-- Field stage, per-field federation-key rewrite: any key in which the new
field name occurs as a whole word is replaced in place and marked updated. -/
def _updateKeysForField (keys : List (String × Bool)) (newName oldName : String) :
    List (String × Bool) :=
  keys.map
    (fun kb =>
      if _containsExactWord kb.1 newName then (_replaceExactWord kb.1 newName oldName, true)
      else kb)

/-- Field stage, one iteration of the loop over a type's renamed fields:
synthesize the old field and update the working copy of the federation
keys. -/
def _fieldStageFieldStep (newObjectName : String)
    (acc : List ast.FieldDefinition × List (String × Bool) × Replacer)
    (fieldInfo : _fieldInfo) : List ast.FieldDefinition × List (String × Bool) × Replacer :=
  let fr := _synthesizeOldField acc.2.2 newObjectName fieldInfo
  let keysUpdated := _updateKeysForField acc.2.1 fieldInfo.field.Name fieldInfo.oldName
  (acc.1 ++ [fr.1], keysUpdated, fr.2)

/-- Field stage, one emitted type extension (the body of the loop over
allObjectNames): collect the old-named fields, update the working copy of
the federation keys, and attach every updated key as a @key directive. -/
def _fieldStageObject (r : Replacer) (newObjectName objectName : String)
    (fields : List _fieldInfo) (keys : List (String × Bool)) :
    (ast.Definition × List (String × Bool)) × Replacer :=
  let folded := fields.foldl (_fieldStageFieldStep newObjectName) ([], keys, r)
  let keyDirectives : ast.DirectiveList :=
    folded.2.1.filterMap
      (fun kb =>
        if kb.2 then
          some
            { Name := "key"
              Arguments := [{ Name := "fields", Value := { Raw := kb.1, Kind := ast.StringValue } }] }
        else none)
  let object : ast.Definition :=
    { Kind := (lookupAssoc r.definitionKinds newObjectName).getD ""
      Name := objectName
      Description := ""
      Directives := keyDirectives
      Fields := folded.1
      EnumValues := []
      Interfaces := []
      Types := []
      HasExtendSource := false }
  ((object, folded.2.1), folded.2.2)

/-- Field stage, one iteration of the loop over allObjectNames. -/
def _fieldStageObjectStep (newObjectName : String) (fields : List _fieldInfo)
    (acc : List (ast.Definition × Bool) × List (String × Bool) × Replacer)
    (objectName : String) :
    List (ast.Definition × Bool) × List (String × Bool) × Replacer :=
  let or' := _fieldStageObject acc.2.2 newObjectName objectName fields acc.2.1
  (acc.1 ++ [(or'.1.1, true)], or'.1.2, or'.2)

/-- Field stage, one owner (new) type name: emit the extension under the new
name, and also under the old name when the owner itself was renamed. -/
def _fieldStageOwner (r : Replacer) (newObjectName : String) :
    List (ast.Definition × Bool) × Replacer :=
  let fields := (lookupAssoc r.fields newObjectName).getD []
  let allObjectNames :=
    match lookupAssoc r.cacheReplacedTypes newObjectName with
    | some oldName => [newObjectName, oldName]
    | none => [newObjectName]
  let keys := ((lookupAssoc r.federationKeys newObjectName).getD []).map (fun k => (k, false))
  let folded := allObjectNames.foldl (_fieldStageObjectStep newObjectName fields) ([], keys, r)
  (folded.1, folded.2.2)

/-- Enum value stage, one owner (new) enum name: emit enum extensions adding
the old-named values, doubled when the enum itself was renamed. -/
def _enumStageOwner (r : Replacer) (newName : String) : List (ast.Definition × Bool) :=
  let enumValues := (lookupAssoc r.enumValues newName).getD []
  let allEnumNames :=
    match lookupAssoc r.cacheReplacedTypes newName with
    | some oldName => [newName, oldName]
    | none => [newName]
  allEnumNames.map
    (fun enumName =>
      let enum : ast.Definition :=
        { Kind := ast.Enum
          Name := enumName
          Description := ""
          Directives := []
          Fields := []
          EnumValues :=
            enumValues.map
              (fun enumValueInfo =>
                let oldEnumValue := { enumValueInfo.enumValue with Name := enumValueInfo.oldName }
                let oldEnumValue :=
                  { oldEnumValue with
                      Directives := _removeReplacesDirective oldEnumValue.Directives }
                { oldEnumValue with
                    Directives :=
                      _addDeprecatedDirective oldEnumValue.Directives
                        ("Replaced by " ++ enumValueInfo.newName ++ ".") })
          Interfaces := []
          Types := []
          HasExtendSource := false }
      (enum, true))

/-- Interface-implementation stage, one owner (new) object name. -/
def _implementsStageOwner (r : Replacer) (newName : String) : List (ast.Definition × Bool) :=
  let interfaceNames := (lookupAssoc r.extraImplements newName).getD []
  let allObjectNames :=
    match lookupAssoc r.cacheReplacedTypes newName with
    | some oldName => [newName, oldName]
    | none => [newName]
  allObjectNames.map
    (fun objectName =>
      let object : ast.Definition :=
        { Kind := ast.Object
          Name := objectName
          Description := ""
          Directives := []
          Fields := []
          EnumValues := []
          Interfaces := interfaceNames
          Types := []
          HasExtendSource := false }
      (object, true))

/-- Union-membership stage, one owner (new) union name. -/
def _unionStageOwner (r : Replacer) (newName : String) : List (ast.Definition × Bool) :=
  let unionMembers := (lookupAssoc r.extraUnionMembers newName).getD []
  let allUnionNames :=
    match lookupAssoc r.cacheReplacedTypes newName with
    | some oldName => [newName, oldName]
    | none => [newName]
  allUnionNames.map
    (fun unionName =>
      let union : ast.Definition :=
        { Kind := ast.Union
          Name := unionName
          Description := ""
          Directives := []
          Fields := []
          EnumValues := []
          Interfaces := []
          Types := unionMembers
          HasExtendSource := false }
      (union, true))

/-- Field stage, one iteration of the loop over the sorted owner names. -/
def _fieldOwnersStep (acc : List (ast.Definition × Bool) × Replacer)
    (newObjectName : String) : List (ast.Definition × Bool) × Replacer :=
  let er' := _fieldStageOwner acc.2 newObjectName
  (acc.1 ++ er'.1, er'.2)

/-- Go Replacer.getSchemaAdditions up to formatting: the sequence of
(definition, emit-as-extension) pairs handed to the formatter, in emission
order, together with the updated Replacer (sorted definitions; errors
accumulated during synthesis). -/
def getSchemaAdditionsCore (r : Replacer) : List (ast.Definition × Bool) × Replacer :=
  if !r.hasProcessedSchema then
    ([], { r with errors := r.errors ++ [⟨.internal, "must call processSchema before getSchemaAdditions"⟩] })
  else
    let r := { r with definitions := sortLe (fun a b => strLe a.oldName b.oldName) r.definitions }
    -- Definition updates.
    let defEmitted := r.definitions.map (fun definitionInfo => (_synthesizeDefinition definitionInfo).1)
    -- Field updates.
    let fieldsObjectNames := sortLe strLe (assocKeys r.fields)
    let fieldFolded := fieldsObjectNames.foldl _fieldOwnersStep ([], r)
    let r := fieldFolded.2
    -- Enum value updates.
    let enumValuesEnumNames := sortLe strLe (assocKeys r.enumValues)
    let enumEmitted := enumValuesEnumNames.flatMap (_enumStageOwner r)
    -- Interface implementation updates.
    let extraImplementsObjectNames := sortLe strLe (assocKeys r.extraImplements)
    let implEmitted := extraImplementsObjectNames.flatMap (_implementsStageOwner r)
    -- Union member updates.
    let extraUnionMembersUnionNames := sortLe strLe (assocKeys r.extraUnionMembers)
    let unionEmitted := extraUnionMembersUnionNames.flatMap (_unionStageOwner r)
    (defEmitted ++ fieldFolded.1 ++ enumEmitted ++ implEmitted ++ unionEmitted, r)

/-! ## Text formatting (model of the external gqlparser formatter) -/

/-- Serialization of a value (model of the external gqlparser formatter:
string literals are quoted, other raw values are emitted as-is). -/
def formatValue (v : ast.Value) : String :=
  if v.Kind = ast.StringValue then "\"" ++ v.Raw ++ "\"" else v.Raw

def formatArgument (a : ast.Argument) : String :=
  a.Name ++ ": " ++ formatValue a.Value

def formatDirective (d : ast.Directive) : String :=
  " @" ++ d.Name ++
    (if d.Arguments.isEmpty then ""
     else "(" ++ joinSep ", " (d.Arguments.map formatArgument) ++ ")")

def formatDirectiveList (ds : ast.DirectiveList) : String :=
  String.join (ds.map formatDirective)

def formatTyp : ast.Typ → String
  | .named n nn => n ++ (if nn then "!" else "")
  | .list e nn => "[" ++ formatTyp e ++ "]" ++ (if nn then "!" else "")

def formatArgumentDefinition (a : ast.ArgumentDefinition) : String :=
  a.Name ++ ": " ++ formatTyp a.Typ ++ formatDirectiveList a.Directives

def formatDescription (indent description : String) : String :=
  if description = "" then "" else indent ++ "\"\"\"" ++ description ++ "\"\"\"\n"

def formatFieldDefinition (f : ast.FieldDefinition) : String :=
  formatDescription "\t" f.Description ++ "\t" ++ f.Name ++
    (if f.Arguments.isEmpty then ""
     else "(" ++ joinSep ", " (f.Arguments.map formatArgumentDefinition) ++ ")") ++
    ": " ++ formatTyp f.Typ ++ formatDirectiveList f.Directives ++ "\n"

def formatEnumValueDefinition (v : ast.EnumValueDefinition) : String :=
  formatDescription "\t" v.Description ++ "\t" ++ v.Name ++ formatDirectiveList v.Directives ++ "\n"

/-- The SDL keyword for a definition kind. -/
def kindKeyword (k : ast.DefinitionKind) : String :=
  if k = ast.Object then "type"
  else if k = ast.InputObject then "input"
  else if k = ast.Interface then "interface"
  else if k = ast.Union then "union"
  else if k = ast.Enum then "enum"
  else if k = ast.Scalar then "scalar"
  else ""

/-- Model of the external gqlparser FormatDefinition (the Go code accesses
it through the _internalFormatter interface): a deterministic pure function
of the definition and the extend flag, emitting tab-indented SDL (the
caller expands tabs afterwards, mirroring the Go code). -/
def FormatDefinition (definition : ast.Definition) (extend : Bool) : String :=
  formatDescription "" definition.Description ++
    (if extend then "extend " else "") ++
    kindKeyword definition.Kind ++ " " ++ definition.Name ++
    (if definition.Interfaces.isEmpty then ""
     else " implements " ++ joinSep " & " definition.Interfaces) ++
    formatDirectiveList definition.Directives ++
    (if definition.Kind = ast.Union then
      (if definition.Types.isEmpty then "" else " = " ++ joinSep " | " definition.Types) ++ "\n"
     else if definition.Fields.isEmpty ∧ definition.EnumValues.isEmpty then "\n"
     else
       " \x7b\n" ++
         String.join (definition.Fields.map formatFieldDefinition) ++
         String.join (definition.EnumValues.map formatEnumValueDefinition) ++
       "\x7d\n")

/-- Go Replacer.getSchemaAdditions: the overlay text (each formatted
definition followed by a blank separator line, tabs expanded) together with
the updated Replacer. -/
def getSchemaAdditions (r : Replacer) : String × Replacer :=
  let core := getSchemaAdditionsCore r
  (expandTabs (String.join (core.1.map (fun e => FormatDefinition e.1 e.2 ++ "\n"))), core.2)

/-- Go GetReplacesDirectiveUpdates: run indexing, then synthesis, and fail
with the accumulated error list when it is non-empty (the Go code wraps the
list in a kind.InvalidInput error; the embedding returns the list itself). -/
def GetReplacesDirectiveUpdates (types : List ast.Definition) : String × Option (List RErr) :=
  let replacer := NewReplacer
  let replacer := processSchema replacer types
  let additionsAndR := getSchemaAdditions replacer
  if additionsAndR.2.errors ≠ [] then ("", some additionsAndR.2.errors)
  else (additionsAndR.1, none)

/-! ## Shape of a type reference (used to state the round-trip property) -/

/-- Well-formedness of an ast.Type value: every named leaf carries a
non-empty name (the invariant documented at _isNonListField). -/
def wfTyp : ast.Typ → Bool
  | .named n _ => n ≠ ""
  | .list e _ => wfTyp e

/-- The list/non-null nesting shape of a type: the non-null flags from the
outermost wrapper down to the named leaf. -/
def typeShape : ast.Typ → List Bool
  | .named _ nn => [nn]
  | .list e nn => nn :: typeShape e

/-- The innermost named type of a type reference. -/
def innermostName : ast.Typ → String
  | .named n _ => n
  | .list e _ => innermostName e

/-! ## Canonical per-definition views of the indexing pass

These definitions are not part of the embedding of the source; they are
spec-level descriptions of what one definition contributes to the Replacer
indices, used to prove that indexing is invariant under the iteration order
of schema.Types. -/

/-- The marker on a node, when extraction succeeds. -/
def renameInfoOf (directives : ast.DirectiveList) : Option ReplaceInfo :=
  match GetReplaceInfo directives with
  | .ok i => some i
  | .error _ => none

/-- Errors contributed by marker extraction alone (a marker missing its name
argument). -/
def extractErrors (directives : ast.DirectiveList) : List RErr :=
  match GetReplaceInfo directives with
  | .error e => if e.kind = .notFound then [] else [e]
  | .ok _ => []

/-- Errors contributed by scanning one argument of an unmarked field. -/
def argScanErrors (typeName fieldName : String) (arg : ast.ArgumentDefinition) : List RErr :=
  match GetReplaceInfo arg.Directives with
  | .ok _ =>
      [⟨.internal,
        "@replaces directive on arguments can only be used on renamed fields; type=" ++
          typeName ++ " field=" ++ fieldName ++ " argument=" ++ arg.Name⟩]
  | .error e => if e.kind = .notFound then [] else [e]

/-- Errors contributed by processing one field. -/
def fieldErrors (typeName : String) (definitionKind : ast.DefinitionKind)
    (field : ast.FieldDefinition) : List RErr :=
  match GetReplaceInfo field.Directives with
  | .error e =>
      (if e.kind = .notFound then [] else [e]) ++
        field.Arguments.flatMap (argScanErrors typeName field.Name)
  | .ok replaceInfo =>
      if definitionKind = ast.InputObject then
        (if field.Typ.NonNull then
          [⟨.invalidInput,
            "input fields using the @replaces directive must be nullable; type=" ++
              typeName ++ " field=" ++ field.Name⟩]
         else []) ++
        (if _isNonListField field && !replaceInfo.TreatZeroAsUnsetPresent then
          [⟨.invalidInput,
            "@replaces directive on non-list input fields must include treatZeroAsUnset:true or treatZeroAsUnset:false; type=" ++
              typeName ++ " field=" ++ field.Name⟩]
         else [])
      else []

/-- The _fieldInfo contributed by one field, when marked. -/
def fieldInfoOf (field : ast.FieldDefinition) : Option _fieldInfo :=
  (renameInfoOf field.Directives).map
    (fun i => { field := field, oldName := i.OldName, oldTypeName := i.OldTypeName })

/-- Errors contributed by processing one enum value. -/
def enumValueErrors (enumName : String) (enumValue : ast.EnumValueDefinition) : List RErr :=
  match GetReplaceInfo enumValue.Directives with
  | .error e => if e.kind = .notFound then [] else [e]
  | .ok replaceInfo =>
      if replaceInfo.OldTypeName ≠ "" then
        [⟨.invalidInput,
          "@replaces directive on enum values can only use `name` argument; enum=" ++
            enumName ++ " enumValue=" ++ enumValue.Name⟩]
      else []

/-- The _enumValueInfo contributed by one enum value, when marked. -/
def enumValueInfoOf (enumValue : ast.EnumValueDefinition) : Option _enumValueInfo :=
  (renameInfoOf enumValue.Directives).map
    (fun i => { enumValue := enumValue, newName := enumValue.Name, oldName := i.OldName })

/-- Errors contributed by the definition-level marker of one definition. -/
def defDirErrors (def_ : ast.Definition) : List RErr :=
  match GetReplaceInfo def_.Directives with
  | .error e => if e.kind = .notFound then [] else [e]
  | .ok replaceInfo =>
      if replaceInfo.OldTypeName ≠ "" then
        [⟨.invalidInput,
          "@replaces directive on definitions can only use `name` argument; definition=" ++
            def_.Name⟩]
      else []

/-- Whether pass 1 walks this definition's fields. -/
def hasFieldsKind (k : ast.DefinitionKind) : Prop :=
  k = ast.Object ∨ k = ast.InputObject ∨ k = ast.Interface

instance (k : ast.DefinitionKind) : Decidable (hasFieldsKind k) := by
  unfold hasFieldsKind; infer_instance

/-- All errors contributed by one definition during pass 1. -/
def defErrors (def_ : ast.Definition) : List RErr :=
  defDirErrors def_ ++
    (if hasFieldsKind def_.Kind then
      def_.Fields.flatMap (fieldErrors def_.Name def_.Kind)
     else if def_.Kind = ast.Enum then
      def_.EnumValues.flatMap (enumValueErrors def_.Name)
     else [])

/-- The definitions-index entry contributed by one definition. -/
def defsEntry (def_ : ast.Definition) : Option _definitionInfo :=
  (renameInfoOf def_.Directives).map (fun i => { definition := def_, oldName := i.OldName })

/-- The rename-table entry contributed by one definition. -/
def cacheEntry (def_ : ast.Definition) : Option (String × String) :=
  (renameInfoOf def_.Directives).map (fun i => (def_.Name, i.OldName))

/-- The renamed fields contributed by one definition. -/
def fieldsEntryList (def_ : ast.Definition) : List _fieldInfo :=
  if hasFieldsKind def_.Kind then def_.Fields.filterMap fieldInfoOf else []

/-- The fields-index entry contributed by one definition. -/
def fieldsEntry (def_ : ast.Definition) : Option (String × List _fieldInfo) :=
  if fieldsEntryList def_ = [] then none else some (def_.Name, fieldsEntryList def_)

/-- The renamed enum values contributed by one definition. -/
def enumEntryList (def_ : ast.Definition) : List _enumValueInfo :=
  if ¬ hasFieldsKind def_.Kind ∧ def_.Kind = ast.Enum then
    def_.EnumValues.filterMap enumValueInfoOf
  else []

/-- The enum-values-index entry contributed by one definition. -/
def enumEntry (def_ : ast.Definition) : Option (String × List _enumValueInfo) :=
  if enumEntryList def_ = [] then none else some (def_.Name, enumEntryList def_)

/-- Old interface names an object must additionally implement, given the
completed rename table. -/
def implValues (cache : List (String × String)) (def_ : ast.Definition) : List String :=
  def_.Interfaces.filterMap (lookupAssoc cache)

/-- The extraImplements entry contributed by one definition in pass 2. -/
def implEntry (cache : List (String × String)) (def_ : ast.Definition) :
    Option (String × List String) :=
  if def_.Kind = ast.Object ∧ implValues cache def_ ≠ [] then
    some (def_.Name, implValues cache def_)
  else none

/-- Old member names a union must additionally list, given the completed
rename table. -/
def unionValues (cache : List (String × String)) (def_ : ast.Definition) : List String :=
  def_.Types.filterMap (lookupAssoc cache)

/-- The extraUnionMembers entry contributed by one definition in pass 2. -/
def unionEntry (cache : List (String × String)) (def_ : ast.Definition) :
    Option (String × List String) :=
  if def_.Kind = ast.Union ∧ unionValues cache def_ ≠ [] then
    some (def_.Name, unionValues cache def_)
  else none

/-- The Replacer state processSchema produces on a schema whose definition
names are distinct, described definition by definition. -/
def canonicalReplacer (types : List ast.Definition) : Replacer :=
  { errors := types.flatMap defErrors
    fields := types.filterMap fieldsEntry
    definitions := types.filterMap defsEntry
    enumValues := types.filterMap enumEntry
    extraImplements := types.filterMap (implEntry (types.filterMap cacheEntry))
    extraUnionMembers := types.filterMap (unionEntry (types.filterMap cacheEntry))
    cacheReplacedTypes := types.filterMap cacheEntry
    definitionKinds := types.map (fun d => (d.Name, d.Kind))
    federationKeys := types.map (fun d => (d.Name, _getFederationKeys d))
    hasProcessedSchema := true }

/-- Errors-only extension between two Replacer states. -/
def ErrExt (r r' : Replacer) : Prop :=
  ∃ ext, r'.errors = r.errors ++ ext

/-- A state that differs from `r` only by appended errors (all indices, the
processed flag, and the definitions list are untouched). -/
def OnlyErr (r r' : Replacer) : Prop :=
  ∃ ext, r' = { r with errors := r.errors ++ ext }

/-! ## Concrete sample schemas used by counterexamples and witnesses -/

/-- An @replaces(name: old) directive. -/
def mkReplaces (old : String) : ast.Directive :=
  { Name := "replaces"
    Arguments := [{ Name := "name", Value := { Raw := old, Kind := ast.StringValue } }] }

/-- An @replaces(name: old, type: oldType) directive. -/
def mkReplacesTyped (old oldType : String) : ast.Directive :=
  { Name := "replaces"
    Arguments :=
      [{ Name := "name", Value := { Raw := old, Kind := ast.StringValue } },
       { Name := "type", Value := { Raw := oldType, Kind := ast.StringValue } }] }

/-- An @replaces directive missing its mandatory name argument. -/
def mkReplacesNameless : ast.Directive :=
  { Name := "replaces", Arguments := [] }

/-- A @key(fields: keyFields) directive. -/
def mkKey (keyFields : String) : ast.Directive :=
  { Name := "key"
    Arguments := [{ Name := "fields", Value := { Raw := keyFields, Kind := ast.StringValue } }] }

/-- An object definition with the given name, directives and fields. -/
def mkObject (name : String) (directives : ast.DirectiveList)
    (fields : List ast.FieldDefinition) : ast.Definition :=
  { Kind := ast.Object
    Name := name
    Description := ""
    Directives := directives
    Fields := fields
    EnumValues := []
    Interfaces := []
    Types := []
    HasExtendSource := false }

/-- A field with the given name, directives, arguments and type. -/
def mkField (name : String) (directives : ast.DirectiveList)
    (arguments : List ast.ArgumentDefinition) (typ : ast.Typ) : ast.FieldDefinition :=
  { Name := name
    Description := ""
    Directives := directives
    Arguments := arguments
    Typ := typ }

/-- Definition with a marker carrying a type override (rejected input). -/
def sampleOverrideDef : ast.Definition :=
  mkObject "Classroom" [mkReplacesTyped "StudentList" "StudentList"]
    [mkField "id" [] [] (.named "String" true)]

/-- A renamed field whose argument carries a nameless @replaces marker; the
marker problem only surfaces during synthesis (argument renames are not
scanned during indexing when the field itself is marked). -/
def sampleBadArgField : ast.FieldDefinition :=
  mkField "f" [mkReplaces "g"]
    [{ Name := "a", Directives := [mkReplacesNameless], Typ := .named "String" false }]
    (.named "String" false)

/-- Schema whose indexing errors (the override) and whose synthesis adds a
further error (the nameless argument marker). -/
def sampleC1Schema : List ast.Definition :=
  [sampleOverrideDef, mkObject "T" [] [sampleBadArgField]]

/-- A renamed enum one of whose values carries a marker; the definitions
stage of synthesis writes the cleaned value back into this definition. -/
def sampleRenamedEnum : ast.Definition :=
  { Kind := ast.Enum
    Name := "ContentKind"
    Description := ""
    Directives := [mkReplaces "OldContentKind"]
    Fields := []
    EnumValues :=
      [{ Name := "DOMAIN", Description := "", Directives := [] },
       { Name := "COURSE", Description := "", Directives := [mkReplaces "TOPIC"] }]
    Interfaces := []
    Types := []
    HasExtendSource := false }

/-- A renamed definition declared with the extend keyword and carrying a
description. -/
def sampleExtendDescribed : ast.Definition :=
  { Kind := ast.Object
    Name := "Classroom"
    Description := "This is a classroom."
    Directives := [mkReplaces "StudentList"]
    Fields := []
    EnumValues := []
    Interfaces := []
    Types := []
    HasExtendSource := true }

/-- An unmarked field carrying a marked argument (rejected input). -/
def sampleArgOnlyField : ast.FieldDefinition :=
  mkField "classroom" []
    [{ Name := "teacherKaid", Directives := [mkReplaces "coachKaid"], Typ := .named "String" true }]
    (.named "Classroom" false)

/-- A marked non-nullable (list-typed) input field (rejected input). -/
def sampleNonNullInputField : ast.FieldDefinition :=
  mkField "newArg" [mkReplaces "oldArg"] [] (.list (.named "String" true) true)

/-- A marked non-list nullable input field lacking treatZeroAsUnset
(rejected input). -/
def sampleNoTzauInputField : ast.FieldDefinition :=
  mkField "newArg" [mkReplaces "oldArg"] [] (.named "String" false)

/-- A marked enum value whose marker carries a type override (rejected
input). -/
def sampleOverrideEnumValue : ast.EnumValueDefinition :=
  { Name := "COURSE", Description := "", Directives := [mkReplacesTyped "TOPIC" "TOPIC"] }

/-- Owner of a federation key containing a renamed field name as a whole
word ("id kaLocale") and as a mere substring ("id kaLocaleValue"). -/
def sampleKeyedObject : ast.Definition :=
  mkObject "UserKaLocaleCourse" [mkKey "id kaLocale", mkKey "id kaLocaleValue"]
    [mkField "id" [] [] (.named "String" true),
     mkField "kaLocale" [mkReplaces "locale"] [] (.named "String" false)]

/-- Renamed type with a renamed field (the doubling example). -/
def sampleClassroom : ast.Definition :=
  mkObject "Classroom" [mkReplaces "StudentList"]
    [mkField "id" [] [] (.named "String" true),
     mkField "teacherKaid" [mkReplaces "coachKaid"] [] (.named "String" true)]

/-- Two definitions declaring the same old name (the rename table the spec
assumes is injective); used to exhibit order sensitivity. -/
def sampleDupA : ast.Definition := mkObject "A" [mkReplaces "Z"] []

def sampleDupB : ast.Definition := mkObject "B" [mkReplaces "Z"] []

/-! ## Reader-form view of the field stage

The field stage threads the Replacer only to look indices up and to append
errors.  The following definitions express its output as a pure function of
the looked-up values; they are proof devices (used to show synthesis output
is invariant under map iteration order), not part of the embedding. -/

/-- What _oldFieldArgStep appends to the argument list: a pure function of
the argument. -/
def _oldFieldArgOut (argument : ast.ArgumentDefinition) : ast.ArgumentDefinition :=
  match renameInfoOf argument.Directives with
  | none => argument
  | some replaceInfo =>
      let oldArgument :=
        { argument with
            Name := replaceInfo.OldName
            Directives := _removeReplacesDirective argument.Directives }
      if replaceInfo.OldTypeName ≠ "" then
        { oldArgument with Typ := _updateType argument.Typ replaceInfo.OldTypeName }
      else oldArgument

/-- The errors the argument loop of one synthesized old field appends. -/
def _oldFieldArgErrs (fieldInfo : _fieldInfo) : List RErr :=
  fieldInfo.field.Arguments.flatMap (fun a => extractErrors a.Directives)

/-- The goField accessor-naming directive attached to every synthesized old
field. -/
def _goFieldDirective (oldName : String) : ast.Directive :=
  { Name := "goField"
    Arguments :=
      [{ Name := "name"
         Value := { Raw := "Deprecated" ++ titleWord oldName, Kind := ast.StringValue } }] }

/-- The synthesized old field as a pure function of the owning type's kind
lookup. -/
def _oldFieldPure (kindOpt : Option ast.DefinitionKind) (fieldInfo : _fieldInfo) :
    ast.FieldDefinition :=
  let oldField := { fieldInfo.field with Name := fieldInfo.oldName }
  let oldField :=
    if fieldInfo.oldTypeName ≠ "" then
      { oldField with Typ := _updateType fieldInfo.field.Typ fieldInfo.oldTypeName }
    else oldField
  let oldField := { oldField with Arguments := fieldInfo.field.Arguments.map _oldFieldArgOut }
  let oldField := { oldField with Directives := _removeReplacesDirective oldField.Directives }
  let deprecatedMessage := "Replaced by " ++ fieldInfo.field.Name ++ "."
  let oldField :=
    if kindOpt.getD "" ≠ ast.InputObject then
      { oldField with Directives := _addDeprecatedDirective oldField.Directives deprecatedMessage }
    else if oldField.Description = "" then
      { oldField with Description := "Deprecated: " ++ deprecatedMessage }
    else
      { oldField with Description := oldField.Description ++ "\nDeprecated: " ++ deprecatedMessage }
  { oldField with Directives := oldField.Directives ++ [_goFieldDirective fieldInfo.oldName] }

/-- Pure form of _fieldStageFieldStep. -/
def _fieldStagePureStep (kindOpt : Option ast.DefinitionKind)
    (acc : List ast.FieldDefinition × List (String × Bool)) (fieldInfo : _fieldInfo) :
    List ast.FieldDefinition × List (String × Bool) :=
  (acc.1 ++ [_oldFieldPure kindOpt fieldInfo],
    _updateKeysForField acc.2 fieldInfo.field.Name fieldInfo.oldName)

/-- The @key directives attached for the updated working keys. -/
def _keyDirectives (keys : List (String × Bool)) : ast.DirectiveList :=
  keys.filterMap
    (fun kb =>
      if kb.2 then
        some
          { Name := "key"
            Arguments := [{ Name := "fields", Value := { Raw := kb.1, Kind := ast.StringValue } }] }
      else none)

/-- Pure form of _fieldStageObject. -/
def _fieldStageObjectPure (kindOpt : Option ast.DefinitionKind) (objectName : String)
    (fields : List _fieldInfo) (keys : List (String × Bool)) :
    ast.Definition × List (String × Bool) :=
  let folded := fields.foldl (_fieldStagePureStep kindOpt) ([], keys)
  ({ Kind := kindOpt.getD ""
     Name := objectName
     Description := ""
     Directives := _keyDirectives folded.2
     Fields := folded.1
     EnumValues := []
     Interfaces := []
     Types := []
     HasExtendSource := false }, folded.2)

/-- The errors one emitted extension appends (the argument loop runs once
per emitted object name). -/
def _fieldStageObjectErrs (fields : List _fieldInfo) : List RErr :=
  fields.flatMap _oldFieldArgErrs

/-- The object names an owner emits under: the new name, and also the old
name when the rename table lists the owner. -/
def _fieldStageOwnerAllNames (cacheOpt : Option String) (newObjectName : String) : List String :=
  match cacheOpt with
  | some oldName => [newObjectName, oldName]
  | none => [newObjectName]

/-- Pure form of _fieldStageObjectStep. -/
def _fieldStageOwnerPureStep (kindOpt : Option ast.DefinitionKind) (fields : List _fieldInfo)
    (acc : List (ast.Definition × Bool) × List (String × Bool)) (objectName : String) :
    List (ast.Definition × Bool) × List (String × Bool) :=
  let ok := _fieldStageObjectPure kindOpt objectName fields acc.2
  (acc.1 ++ [(ok.1, true)], ok.2)

/-- Pure form of _fieldStageOwner: the emitted extensions of one owner as a
function of the four index lookups. -/
def _fieldStageOwnerPure (kindOpt : Option ast.DefinitionKind)
    (fieldsOpt : Option (List _fieldInfo)) (cacheOpt : Option String)
    (fedOpt : Option (List String)) (newObjectName : String) : List (ast.Definition × Bool) :=
  let fields := fieldsOpt.getD []
  let keys := (fedOpt.getD []).map (fun k => (k, false))
  ((_fieldStageOwnerAllNames cacheOpt newObjectName).foldl
      (_fieldStageOwnerPureStep kindOpt fields) ([], keys)).1

/-- The errors one owner appends during the field stage. -/
def _fieldStageOwnerErrs (fieldsOpt : Option (List _fieldInfo)) (cacheOpt : Option String)
    (newObjectName : String) : List RErr :=
  (_fieldStageOwnerAllNames cacheOpt newObjectName).flatMap
    (fun _ => _fieldStageObjectErrs (fieldsOpt.getD []))

/-! ## Errors-only extension lemmas -/

theorem errExt_refl (r : Replacer) : ErrExt r r :=
  ⟨[], (List.append_nil _).symm⟩

theorem errExt_trans {r₁ r₂ r₃ : Replacer} (h₁ : ErrExt r₁ r₂) (h₂ : ErrExt r₂ r₃) :
    ErrExt r₁ r₃ := by
  obtain ⟨e₁, h₁⟩ := h₁
  obtain ⟨e₂, h₂⟩ := h₂
  exact ⟨e₁ ++ e₂, by rw [h₂, h₁, List.append_assoc]⟩

theorem errExt_append (r : Replacer) (ext : List RErr) :
    ErrExt r { r with errors := r.errors ++ ext } :=
  ⟨ext, rfl⟩

theorem errExt_foldl {σ β : Type} (step : σ → β → σ) (proj : σ → Replacer)
    (h : ∀ s b, ErrExt (proj s) (proj (step s b))) (l : List β) :
    ∀ s, ErrExt (proj s) (proj (l.foldl step s)) := by
  induction l with
  | nil => intro s; exact errExt_refl _
  | cons b l ih => intro s; exact errExt_trans (h s b) (ih (step s b))

theorem getReplaceInfo_errExt (r : Replacer) (directives : ast.DirectiveList) :
    ErrExt r (r.getReplaceInfo directives).2 := by
  unfold Replacer.getReplaceInfo
  match GetReplaceInfo directives with
  | .error e =>
      by_cases h : e.kind = ErrKind.notFound
      · simp [h]; exact errExt_refl r
      · simp [h]; exact ⟨[e], rfl⟩
  | .ok info => exact errExt_refl r

theorem oldFieldArgStep_errExt (acc : List ast.ArgumentDefinition × Replacer)
    (argument : ast.ArgumentDefinition) : ErrExt acc.2 (_oldFieldArgStep acc argument).2 := by
  unfold _oldFieldArgStep
  have h0 := getReplaceInfo_errExt acc.2 argument.Directives
  rcases hgr : acc.2.getReplaceInfo argument.Directives with ⟨oi, r'⟩
  rw [hgr] at h0
  cases oi with
  | none => simpa [hgr] using h0
  | some info => simpa [hgr] using h0

theorem synthesizeOldField_errExt (r : Replacer) (newObjectName : String)
    (fieldInfo : _fieldInfo) : ErrExt r (_synthesizeOldField r newObjectName fieldInfo).2 := by
  show ErrExt r (fieldInfo.field.Arguments.foldl _oldFieldArgStep ([], r)).2
  exact errExt_foldl _oldFieldArgStep Prod.snd oldFieldArgStep_errExt fieldInfo.field.Arguments ([], r)

theorem fieldStageObject_errExt (r : Replacer) (newObjectName objectName : String)
    (fields : List _fieldInfo) (keys : List (String × Bool)) :
    ErrExt r (_fieldStageObject r newObjectName objectName fields keys).2 := by
  show ErrExt r (fields.foldl (_fieldStageFieldStep newObjectName) ([], keys, r)).2.2
  exact errExt_foldl (_fieldStageFieldStep newObjectName) (fun s => s.2.2)
    (fun s b => synthesizeOldField_errExt s.2.2 newObjectName b) fields ([], keys, r)

theorem fieldStageOwner_errExt (r : Replacer) (newObjectName : String) :
    ErrExt r (_fieldStageOwner r newObjectName).2 := by
  unfold _fieldStageOwner
  refine errExt_foldl (_fieldStageObjectStep newObjectName _) (fun s => s.2.2)
    (fun s b => ?_) _ _
  exact fieldStageObject_errExt s.2.2 newObjectName b _ s.2.1

theorem fieldOwnersStep_errExt (acc : List (ast.Definition × Bool) × Replacer)
    (newObjectName : String) : ErrExt acc.2 (_fieldOwnersStep acc newObjectName).2 :=
  fieldStageOwner_errExt acc.2 newObjectName

theorem getSchemaAdditionsCore_errExt (r : Replacer) :
    ErrExt r (getSchemaAdditionsCore r).2 := by
  unfold getSchemaAdditionsCore
  by_cases h : r.hasProcessedSchema
  · simp only [h, Bool.not_true, Bool.false_eq_true, if_false]
    exact errExt_foldl _fieldOwnersStep Prod.snd fieldOwnersStep_errExt _ _
  · simp only [Bool.not_eq_true] at h
    simp only [h, Bool.not_false, if_true]
    exact ⟨[⟨.internal, "must call processSchema before getSchemaAdditions"⟩], rfl⟩

theorem getSchemaAdditions_errExt (r : Replacer) :
    ErrExt r (getSchemaAdditions r).2 := by
  unfold getSchemaAdditions
  exact getSchemaAdditionsCore_errExt r

/-! ## Claim C1 -/

/-- C1 (amended): for every schema on which indexing accumulates at least one
error, GetReplacesDirectiveUpdates returns an empty string result together
with a non-nil error result, so a caller never observes generated output
together with a non-empty error list (synthesis is still invoked internally;
its text is discarded). -/
theorem C1_failure_contract_amended (types : List ast.Definition)
    (h : (processSchema NewReplacer types).errors ≠ []) :
    (GetReplacesDirectiveUpdates types).1 = "" ∧
      (GetReplacesDirectiveUpdates types).2 ≠ none := by
  unfold GetReplacesDirectiveUpdates
  obtain ⟨ext, hext⟩ := getSchemaAdditions_errExt (processSchema NewReplacer types)
  have hne : (getSchemaAdditions (processSchema NewReplacer types)).2.errors ≠ [] := by
    rw [hext]
    intro hc
    exact h (List.append_eq_nil.mp hc).1
  simp [hne]

/-- Witness for C1_failure_contract_amended at a concrete schema. -/
theorem C1_failure_contract_witness :
    (processSchema NewReplacer sampleC1Schema).errors ≠ [] ∧
      (GetReplacesDirectiveUpdates sampleC1Schema).1 = "" ∧
      (GetReplacesDirectiveUpdates sampleC1Schema).2 ≠ none :=
  ⟨by decide, C1_failure_contract_amended sampleC1Schema (by decide)⟩

/-- C1 counterexample: as stated the claim also asserts synthesis does not
run; but on this schema the error list returned to the caller is strictly
longer than the list indexing produced — the extra Internal error (a
nameless argument marker) is appended while synthesis runs, so synthesis
does run. -/
theorem C1_synthesis_runs_counterexample :
    (processSchema NewReplacer sampleC1Schema).errors.length = 1 ∧
      (GetReplacesDirectiveUpdates sampleC1Schema).2 ≠
        some (processSchema NewReplacer sampleC1Schema).errors ∧
      (GetReplacesDirectiveUpdates sampleC1Schema).2 =
        some ((processSchema NewReplacer sampleC1Schema).errors ++
          [⟨.internal, "name required on @replaces directive"⟩]) := by
  decide

/-! ## Claim C2 -/

/-- C2 (code bug): the definitions stage is supposed to leave the input
schema unchanged, but for a renamed enum the loop writes the cleaned enum
values back through the shallow clone's EnumValues slice, which is the input
definition's own backing array: after synthesizing the shadow definition the
input enum's values have lost their @replaces directives. -/
theorem C2_enum_values_mutated :
    (_synthesizeDefinition { definition := sampleRenamedEnum, oldName := "OldContentKind" }).2 ≠
      sampleRenamedEnum ∧
      (_synthesizeDefinition { definition := sampleRenamedEnum, oldName := "OldContentKind" }).2 =
        { sampleRenamedEnum with
            EnumValues :=
              [{ Name := "DOMAIN", Description := "", Directives := [] },
               { Name := "COURSE", Description := "", Directives := [] }] } := by
  decide

/-! ## Claim C3 -/

/-- C3 (amended): the shadow clone of a renamed definition is emitted as an
extension exactly when the source declaration used the extend keyword; it
carries no description only when the original description was empty — when
the original carries a description, the deprecated sentence is appended to
it even for extensions; for non-extended declarations the sentence is
appended, or set as the sole description when the original was empty. -/
theorem C3_description_amended (definitionInfo : _definitionInfo) :
    ((_synthesizeDefinition definitionInfo).1.2 =
        _definitionHasExtends definitionInfo.definition) ∧
      (definitionInfo.definition.Description = "" ∧
          _definitionHasExtends definitionInfo.definition = true →
        (_synthesizeDefinition definitionInfo).1.1.Description = "") ∧
      (definitionInfo.definition.Description = "" ∧
          _definitionHasExtends definitionInfo.definition = false →
        (_synthesizeDefinition definitionInfo).1.1.Description =
          "Deprecated: Replaced by " ++ definitionInfo.definition.Name ++ ".") ∧
      (definitionInfo.definition.Description ≠ "" →
        (_synthesizeDefinition definitionInfo).1.1.Description =
          definitionInfo.definition.Description ++ "\n" ++
            ("Deprecated: Replaced by " ++ definitionInfo.definition.Name ++ ".")) := by
  refine ⟨by simp [_synthesizeDefinition], ?_, ?_, ?_⟩
  · rintro ⟨hd, he⟩
    simp [_synthesizeDefinition, hd, he]
  · rintro ⟨hd, he⟩
    simp [_synthesizeDefinition, hd, he]
  · intro hd
    simp [_synthesizeDefinition, hd]

/-- Witness for C3_description_amended on the extend-with-description
sample. -/
theorem C3_description_witness :
    sampleExtendDescribed.Description ≠ "" ∧
      (_synthesizeDefinition { definition := sampleExtendDescribed, oldName := "StudentList" }).1.1.Description =
        sampleExtendDescribed.Description ++ "\n" ++
          ("Deprecated: Replaced by " ++ sampleExtendDescribed.Name ++ ".") :=
  ⟨by decide,
    (C3_description_amended { definition := sampleExtendDescribed, oldName := "StudentList" }).2.2.2
      (by decide)⟩

/-- C3 counterexample: a renamed definition that used the extend keyword and
carries a description; the claim says its clone carries no description, but
the emitted clone keeps the description with the deprecated sentence
appended. -/
theorem C3_extend_description_counterexample :
    _definitionHasExtends sampleExtendDescribed = true ∧
      (_synthesizeDefinition { definition := sampleExtendDescribed, oldName := "StudentList" }).1.1.Description =
        "This is a classroom.\nDeprecated: Replaced by Classroom." ∧
      (_synthesizeDefinition { definition := sampleExtendDescribed, oldName := "StudentList" }).1.1.Description ≠
        "" := by
  decide

/-! ## Claim C4 -/

/-- C4 (amended): a type override on a Definition or EnumValue marker, a
rename marker on a non-nullable InputObject field, and a missing required
treat-zero-as-unset declaration on a non-list InputObject field marker are
each accumulated as errors classified InvalidInput; the fourth violation of
the taxonomy — an argument rename whose owning field carries no rename
marker — is accumulated as an error classified Internal, not InvalidInput. -/
theorem C4_error_kinds_amended :
    (∀ (r : Replacer) (def_ : ast.Definition) (replaceInfo : ReplaceInfo),
        GetReplaceInfo def_.Directives = .ok replaceInfo → replaceInfo.OldTypeName ≠ "" →
        (_processDefinition r def_).errors =
          r.errors ++
            [⟨.invalidInput,
              "@replaces directive on definitions can only use `name` argument; definition=" ++
                def_.Name⟩]) ∧
      (∀ (r : Replacer) (enumName : String) (enumValue : ast.EnumValueDefinition)
          (replaceInfo : ReplaceInfo),
        GetReplaceInfo enumValue.Directives = .ok replaceInfo → replaceInfo.OldTypeName ≠ "" →
        (_processEnumValue r enumName enumValue).errors =
          r.errors ++
            [⟨.invalidInput,
              "@replaces directive on enum values can only use `name` argument; enum=" ++
                enumName ++ " enumValue=" ++ enumValue.Name⟩]) ∧
      (∀ (r : Replacer) (typeName : String) (field : ast.FieldDefinition)
          (replaceInfo : ReplaceInfo),
        GetReplaceInfo field.Directives = .ok replaceInfo → field.Typ.NonNull = true →
        (_isNonListField field && !replaceInfo.TreatZeroAsUnsetPresent) = false →
        (_processField r typeName ast.InputObject field).errors =
          r.errors ++
            [⟨.invalidInput,
              "input fields using the @replaces directive must be nullable; type=" ++
                typeName ++ " field=" ++ field.Name⟩]) ∧
      (∀ (r : Replacer) (typeName : String) (field : ast.FieldDefinition)
          (replaceInfo : ReplaceInfo),
        GetReplaceInfo field.Directives = .ok replaceInfo → field.Typ.NonNull = false →
        (_isNonListField field && !replaceInfo.TreatZeroAsUnsetPresent) = true →
        (_processField r typeName ast.InputObject field).errors =
          r.errors ++
            [⟨.invalidInput,
              "@replaces directive on non-list input fields must include treatZeroAsUnset:true or treatZeroAsUnset:false; type=" ++
                typeName ++ " field=" ++ field.Name⟩]) ∧
      (∀ (r : Replacer) (typeName : String) (definitionKind : ast.DefinitionKind)
          (field : ast.FieldDefinition) (arg : ast.ArgumentDefinition)
          (replaceInfo : ReplaceInfo),
        forNameDirective field.Directives "replaces" = none → field.Arguments = [arg] →
        GetReplaceInfo arg.Directives = .ok replaceInfo →
        (_processField r typeName definitionKind field).errors =
          r.errors ++
            [⟨.internal,
              "@replaces directive on arguments can only be used on renamed fields; type=" ++
                typeName ++ " field=" ++ field.Name ++ " argument=" ++ arg.Name⟩]) := by
  refine ⟨?_, ?_, ?_, ?_, ?_⟩
  · intro r def_ replaceInfo hok hov
    simp [_processDefinition, Replacer.getReplaceInfo, hok, hov]
  · intro r enumName enumValue replaceInfo hok hov
    simp [_processEnumValue, Replacer.getReplaceInfo, hok, hov]
  · intro r typeName field replaceInfo hok hnn htz
    simp [_processField, Replacer.getReplaceInfo, hok, hnn, htz]
  · intro r typeName field replaceInfo hok hnn htz
    simp [_processField, Replacer.getReplaceInfo, hok, hnn, htz]
  · intro r typeName definitionKind field arg replaceInfo hnf hargs hok
    have hgr : GetReplaceInfo field.Directives = .error ⟨.notFound, "not found"⟩ := by
      unfold GetReplaceInfo
      rw [hnf]
    simp [_processField, _argScanStep, Replacer.getReplaceInfo, hgr, hargs, hok]

/-- Witness for C4_error_kinds_amended at concrete rejected inputs. -/
theorem C4_error_kinds_witness :
    (_processDefinition NewReplacer sampleOverrideDef).errors =
        [⟨.invalidInput,
          "@replaces directive on definitions can only use `name` argument; definition=Classroom"⟩] ∧
      (_processEnumValue NewReplacer "ContentKind" sampleOverrideEnumValue).errors =
        [⟨.invalidInput,
          "@replaces directive on enum values can only use `name` argument; enum=ContentKind enumValue=COURSE"⟩] ∧
      (_processField NewReplacer "SomeInput" ast.InputObject sampleNonNullInputField).errors =
        [⟨.invalidInput,
          "input fields using the @replaces directive must be nullable; type=SomeInput field=newArg"⟩] ∧
      (_processField NewReplacer "SomeInput" ast.InputObject sampleNoTzauInputField).errors =
        [⟨.invalidInput,
          "@replaces directive on non-list input fields must include treatZeroAsUnset:true or treatZeroAsUnset:false; type=SomeInput field=newArg"⟩] ∧
      (_processField NewReplacer "User" ast.Object sampleArgOnlyField).errors =
        [⟨.internal,
          "@replaces directive on arguments can only be used on renamed fields; type=User field=classroom argument=teacherKaid"⟩] := by
  refine ⟨?_, ?_, ?_, ?_, ?_⟩
  · exact C4_error_kinds_amended.1 NewReplacer sampleOverrideDef
      { OldName := "StudentList", OldTypeName := "StudentList",
        WasRequiredBeforeRename := false, TreatZeroAsUnset := false,
        TreatZeroAsUnsetPresent := false } (by rfl) (by decide)
  · exact C4_error_kinds_amended.2.1 NewReplacer "ContentKind" sampleOverrideEnumValue
      { OldName := "TOPIC", OldTypeName := "TOPIC",
        WasRequiredBeforeRename := false, TreatZeroAsUnset := false,
        TreatZeroAsUnsetPresent := false } (by rfl) (by decide)
  · exact C4_error_kinds_amended.2.2.1 NewReplacer "SomeInput" sampleNonNullInputField
      { OldName := "oldArg", OldTypeName := "",
        WasRequiredBeforeRename := false, TreatZeroAsUnset := false,
        TreatZeroAsUnsetPresent := false } (by rfl) (by decide) (by decide)
  · exact C4_error_kinds_amended.2.2.2.1 NewReplacer "SomeInput" sampleNoTzauInputField
      { OldName := "oldArg", OldTypeName := "",
        WasRequiredBeforeRename := false, TreatZeroAsUnset := false,
        TreatZeroAsUnsetPresent := false } (by rfl) (by decide) (by decide)
  · exact C4_error_kinds_amended.2.2.2.2 NewReplacer "User" ast.Object sampleArgOnlyField
      { Name := "teacherKaid", Directives := [mkReplaces "coachKaid"],
        Typ := .named "String" true }
      { OldName := "coachKaid", OldTypeName := "",
        WasRequiredBeforeRename := false, TreatZeroAsUnset := false,
        TreatZeroAsUnsetPresent := false } (by rfl) (by rfl) (by rfl)

/-- C4 counterexample: the argument-rename-without-field-rename violation is
accumulated with kind Internal, not InvalidInput as the claim states. -/
theorem C4_argument_rename_kind_counterexample :
    (_processField NewReplacer "User" ast.Object sampleArgOnlyField).errors.map RErr.kind =
        [ErrKind.internal] ∧
      (_processField NewReplacer "User" ast.Object sampleArgOnlyField).errors.map RErr.kind ≠
        [ErrKind.invalidInput] := by
  decide

/-! ## Claim C5 -/

/-- C5 (amended): during Pass 1 a Definition whose rename marker carries a
type override is rejected with an accumulated error, but it is nevertheless
still recorded into both the definitions index and the global
new-name-to-old-name rename table (the code appends the error and falls
through); a Definition whose marker carries no type override is recorded
into both structures without any error being appended. -/
theorem C5_override_still_recorded (r : Replacer) (def_ : ast.Definition)
    (replaceInfo : ReplaceInfo) (hok : GetReplaceInfo def_.Directives = .ok replaceInfo) :
    (replaceInfo.OldTypeName ≠ "" →
      _processDefinition r def_ =
        { r with
            definitionKinds := assocSet r.definitionKinds def_.Name def_.Kind
            federationKeys := assocSet r.federationKeys def_.Name (_getFederationKeys def_)
            errors :=
              r.errors ++
                [⟨.invalidInput,
                  "@replaces directive on definitions can only use `name` argument; definition=" ++
                    def_.Name⟩]
            definitions :=
              r.definitions ++ [{ definition := def_, oldName := replaceInfo.OldName }]
            cacheReplacedTypes :=
              assocSet r.cacheReplacedTypes def_.Name replaceInfo.OldName }) ∧
    (replaceInfo.OldTypeName = "" →
      _processDefinition r def_ =
        { r with
            definitionKinds := assocSet r.definitionKinds def_.Name def_.Kind
            federationKeys := assocSet r.federationKeys def_.Name (_getFederationKeys def_)
            definitions :=
              r.definitions ++ [{ definition := def_, oldName := replaceInfo.OldName }]
            cacheReplacedTypes :=
              assocSet r.cacheReplacedTypes def_.Name replaceInfo.OldName }) := by
  constructor
  · intro hov
    simp [_processDefinition, Replacer.getReplaceInfo, hok, hov]
  · intro hov
    simp [_processDefinition, Replacer.getReplaceInfo, hok, hov]

/-- Witness for C5_override_still_recorded at the concrete override
definition (first conjunct) and at the override-free renamed Classroom
definition (second conjunct: recorded, no error). -/
theorem C5_override_witness :
    (_processDefinition NewReplacer sampleOverrideDef =
      { NewReplacer with
          definitionKinds := [("Classroom", ast.Object)]
          federationKeys := [("Classroom", [])]
          errors :=
            [⟨.invalidInput,
              "@replaces directive on definitions can only use `name` argument; definition=Classroom"⟩]
          definitions := [{ definition := sampleOverrideDef, oldName := "StudentList" }]
          cacheReplacedTypes := [("Classroom", "StudentList")] }) ∧
    (_processDefinition NewReplacer sampleClassroom =
      { NewReplacer with
          definitionKinds := [("Classroom", ast.Object)]
          federationKeys := [("Classroom", [])]
          errors := []
          definitions := [{ definition := sampleClassroom, oldName := "StudentList" }]
          cacheReplacedTypes := [("Classroom", "StudentList")] }) := by
  constructor
  · have h := (C5_override_still_recorded NewReplacer sampleOverrideDef
      { OldName := "StudentList", OldTypeName := "StudentList",
        WasRequiredBeforeRename := false, TreatZeroAsUnset := false,
        TreatZeroAsUnsetPresent := false } (by rfl)).1 (by decide)
    rw [h]
    decide
  · have h := (C5_override_still_recorded NewReplacer sampleClassroom
      { OldName := "StudentList", OldTypeName := "",
        WasRequiredBeforeRename := false, TreatZeroAsUnset := false,
        TreatZeroAsUnsetPresent := false } (by rfl)).2 (by rfl)
    rw [h]
    decide

/-- C5 counterexample: the claim says the overridden definition is not
recorded into the rename table; on the concrete override definition it is
recorded (along with the accumulated error). -/
theorem C5_not_recorded_counterexample :
    (processSchema NewReplacer [sampleOverrideDef]).errors ≠ [] ∧
      (processSchema NewReplacer [sampleOverrideDef]).cacheReplacedTypes =
        [("Classroom", "StudentList")] ∧
      (processSchema NewReplacer [sampleOverrideDef]).definitions =
        [{ definition := sampleOverrideDef, oldName := "StudentList" }] := by
  decide

/-! ## Claim C6 -/

/-- C6 (amended): calling synthesis before indexing accumulates an Internal
error and returns empty text, and invoking indexing a second time
accumulates an Internal error and leaves the indices unchanged; there is no
guard against running synthesis twice — a second synthesis call after a
successful one simply runs synthesis again without an Internal error. -/
theorem C6_guards_amended :
    (∀ r : Replacer, r.hasProcessedSchema = false →
        getSchemaAdditions r =
          ("",
            { r with
                errors :=
                  r.errors ++
                    [⟨.internal, "must call processSchema before getSchemaAdditions"⟩] })) ∧
      (∀ (r : Replacer) (types : List ast.Definition), r.hasProcessedSchema = true →
        processSchema r types =
          { r with errors := r.errors ++ [⟨.internal, "processSchema called multiple times"⟩] }) := by
  constructor
  · intro r h
    simp [getSchemaAdditions, getSchemaAdditionsCore, h, expandTabs]
  · intro r types h
    simp [processSchema, h]

/-- Witness for C6_guards_amended at the initial Replacer state. -/
theorem C6_guards_witness :
    getSchemaAdditions NewReplacer =
      ("",
        { NewReplacer with
            errors := [⟨.internal, "must call processSchema before getSchemaAdditions"⟩] }) ∧
      processSchema
          { NewReplacer with hasProcessedSchema := true } [] =
        { NewReplacer with
            hasProcessedSchema := true
            errors := [⟨.internal, "processSchema called multiple times"⟩] } := by
  constructor
  · have h := C6_guards_amended.1 NewReplacer (by decide)
    rw [h]
    decide
  · have h := C6_guards_amended.2 { NewReplacer with hasProcessedSchema := true } [] (by decide)
    rw [h]
    decide

/-- C6 counterexample: after indexing and a first successful synthesis, a
second synthesis call accumulates no Internal error (there is no
double-synthesis guard). -/
theorem C6_double_synthesis_counterexample :
    (getSchemaAdditions (processSchema NewReplacer [])).2.errors = [] ∧
      (getSchemaAdditions
          (getSchemaAdditions (processSchema NewReplacer [])).2).2.errors = [] := by
  decide

/-! ## Claim C7 -/

/-- C7: for every renamed field carrying an old-type override, the type
rebuilt by _updateType preserves the exact list/non-null nesting shape of
the input type with only the innermost named type replaced by the override;
in particular [T!]! rebuilt with "U" is exactly [U!]!. -/
theorem C7_update_type_shape (typ : ast.Typ) (newTypeName : String)
    (h : wfTyp typ = true) :
    typeShape (_updateType typ newTypeName) = typeShape typ ∧
      innermostName (_updateType typ newTypeName) = newTypeName ∧
      _updateType (ast.Typ.list (ast.Typ.named "T" true) true) "U" =
        ast.Typ.list (ast.Typ.named "U" true) true := by
  have main : ∀ t : ast.Typ, wfTyp t = true →
      typeShape (_updateType t newTypeName) = typeShape t ∧
        innermostName (_updateType t newTypeName) = newTypeName := by
    intro t ht
    induction t with
    | named n nn =>
        simp only [wfTyp, ne_eq, decide_not] at ht
        have hne : n ≠ "" := by
          intro hc
          rw [hc] at ht
          simp at ht
        simp [_updateType, hne, typeShape, innermostName]
    | list e nn ih =>
        simp only [wfTyp] at ht
        obtain ⟨h1, h2⟩ := ih ht
        simp [_updateType, typeShape, innermostName, h1, h2]
  exact ⟨(main typ h).1, (main typ h).2, by decide⟩

/-- Witness for C7_update_type_shape at the [T!]! example. -/
theorem C7_update_type_witness :
    wfTyp (ast.Typ.list (ast.Typ.named "T" true) true) = true ∧
      typeShape (_updateType (ast.Typ.list (ast.Typ.named "T" true) true) "U") =
        typeShape (ast.Typ.list (ast.Typ.named "T" true) true) ∧
      innermostName (_updateType (ast.Typ.list (ast.Typ.named "T" true) true) "U") = "U" ∧
      _updateType (ast.Typ.list (ast.Typ.named "T" true) true) "U" =
        ast.Typ.list (ast.Typ.named "U" true) true :=
  ⟨by decide,
    (C7_update_type_shape (ast.Typ.list (ast.Typ.named "T" true) true) "U" (by decide)).1,
    (C7_update_type_shape (ast.Typ.list (ast.Typ.named "T" true) true) "U" (by decide)).2.1,
    (C7_update_type_shape (ast.Typ.list (ast.Typ.named "T" true) true) "U" (by decide)).2.2⟩

/-! ## Only-errors characterization of the synthesis state -/

theorem onlyErr_refl (r : Replacer) : OnlyErr r r :=
  ⟨[], by simp⟩

theorem onlyErr_trans {r₁ r₂ r₃ : Replacer} (h₁ : OnlyErr r₁ r₂) (h₂ : OnlyErr r₂ r₃) :
    OnlyErr r₁ r₃ := by
  obtain ⟨e₁, h₁⟩ := h₁
  obtain ⟨e₂, h₂⟩ := h₂
  refine ⟨e₁ ++ e₂, ?_⟩
  subst h₁
  simpa [List.append_assoc] using h₂

theorem onlyErr_foldl {σ β : Type} (step : σ → β → σ) (proj : σ → Replacer)
    (h : ∀ s b, OnlyErr (proj s) (proj (step s b))) (l : List β) :
    ∀ s, OnlyErr (proj s) (proj (l.foldl step s)) := by
  induction l with
  | nil => intro s; exact onlyErr_refl _
  | cons b l ih => intro s; exact onlyErr_trans (h s b) (ih (step s b))

theorem getReplaceInfo_onlyErr (r : Replacer) (directives : ast.DirectiveList) :
    OnlyErr r (r.getReplaceInfo directives).2 := by
  unfold Replacer.getReplaceInfo
  match GetReplaceInfo directives with
  | .error e =>
      by_cases h : e.kind = ErrKind.notFound
      · simp [h]; exact onlyErr_refl r
      · simp [h]; exact ⟨[e], rfl⟩
  | .ok info => exact onlyErr_refl r

theorem oldFieldArgStep_onlyErr (acc : List ast.ArgumentDefinition × Replacer)
    (argument : ast.ArgumentDefinition) : OnlyErr acc.2 (_oldFieldArgStep acc argument).2 := by
  unfold _oldFieldArgStep
  have h0 := getReplaceInfo_onlyErr acc.2 argument.Directives
  rcases hgr : acc.2.getReplaceInfo argument.Directives with ⟨oi, r'⟩
  rw [hgr] at h0
  cases oi with
  | none => simpa [hgr] using h0
  | some info => simpa [hgr] using h0

theorem synthesizeOldField_onlyErr (r : Replacer) (newObjectName : String)
    (fieldInfo : _fieldInfo) : OnlyErr r (_synthesizeOldField r newObjectName fieldInfo).2 := by
  show OnlyErr r (fieldInfo.field.Arguments.foldl _oldFieldArgStep ([], r)).2
  exact onlyErr_foldl _oldFieldArgStep Prod.snd oldFieldArgStep_onlyErr fieldInfo.field.Arguments ([], r)

theorem fieldStageObject_onlyErr (r : Replacer) (newObjectName objectName : String)
    (fields : List _fieldInfo) (keys : List (String × Bool)) :
    OnlyErr r (_fieldStageObject r newObjectName objectName fields keys).2 := by
  show OnlyErr r (fields.foldl (_fieldStageFieldStep newObjectName) ([], keys, r)).2.2
  exact onlyErr_foldl (_fieldStageFieldStep newObjectName) (fun s => s.2.2)
    (fun s b => synthesizeOldField_onlyErr s.2.2 newObjectName b) fields ([], keys, r)

theorem fieldStageOwner_onlyErr (r : Replacer) (newObjectName : String) :
    OnlyErr r (_fieldStageOwner r newObjectName).2 := by
  unfold _fieldStageOwner
  refine onlyErr_foldl (_fieldStageObjectStep newObjectName _) (fun s => s.2.2)
    (fun s b => ?_) _ _
  exact fieldStageObject_onlyErr s.2.2 newObjectName b _ s.2.1

theorem fieldOwnersStep_onlyErr (acc : List (ast.Definition × Bool) × Replacer)
    (newObjectName : String) : OnlyErr acc.2 (_fieldOwnersStep acc newObjectName).2 :=
  fieldStageOwner_onlyErr acc.2 newObjectName

/-- The state getSchemaAdditionsCore returns when indexing has happened:
only the definitions list is re-ordered (sorted by old name) and errors may
be appended; every index map is untouched. -/
theorem getSchemaAdditionsCore_state (r : Replacer) (h : r.hasProcessedSchema = true) :
    ∃ ext, (getSchemaAdditionsCore r).2 =
      { r with
          definitions := sortLe (fun a b => strLe a.oldName b.oldName) r.definitions
          errors := r.errors ++ ext } := by
  unfold getSchemaAdditionsCore
  simp only [h, Bool.not_true, Bool.false_eq_true, if_false]
  have h0 := onlyErr_foldl _fieldOwnersStep Prod.snd fieldOwnersStep_onlyErr
    (sortLe strLe (assocKeys r.fields))
    ([], { r with definitions := sortLe (fun a b => strLe a.oldName b.oldName) r.definitions })
  obtain ⟨ext, hext⟩ := h0
  refine ⟨ext, ?_⟩
  simp only [h] at hext
  simpa using hext

/-- Synthesis never touches the federationKeys index. -/
theorem getSchemaAdditions_federationKeys (r : Replacer) :
    (getSchemaAdditions r).2.federationKeys = r.federationKeys := by
  unfold getSchemaAdditions
  by_cases h : r.hasProcessedSchema
  · obtain ⟨ext, hext⟩ := getSchemaAdditionsCore_state r h
    rw [hext]
  · unfold getSchemaAdditionsCore
    simp only [Bool.not_eq_true] at h
    simp [h]

/-! ## Claim C8 -/

/-- C8: federation-key rewriting is whole-word only and never touches the
base type's key.  For a renamed field and a key in which its new name occurs
as a whole word, the extension synthesized by the field stage carries
exactly the key with that word replaced by the old name; a key without a
whole-word occurrence is left unchanged and attaches nothing; synthesis
never modifies the recorded federationKeys index; and concretely
"id kaLocale" (kaLocale renamed to locale) becomes "id locale" while
"id kaLocaleValue" contains kaLocale only as a substring and is untouched,
the recorded keys of the owner staying as given. -/
theorem C8_key_rewrite :
    (∀ (r : Replacer) (newObjectName objectName : String) (fieldInfo : _fieldInfo) (k : String),
        _containsExactWord k fieldInfo.field.Name = true →
        (_fieldStageObject r newObjectName objectName [fieldInfo] [(k, false)]).1.1.Directives =
            [mkKey (_replaceExactWord k fieldInfo.field.Name fieldInfo.oldName)] ∧
          (_fieldStageObject r newObjectName objectName [fieldInfo] [(k, false)]).1.2 =
            [(_replaceExactWord k fieldInfo.field.Name fieldInfo.oldName, true)]) ∧
      (∀ (r : Replacer) (newObjectName objectName : String) (fieldInfo : _fieldInfo) (k : String),
        _containsExactWord k fieldInfo.field.Name = false →
        (_fieldStageObject r newObjectName objectName [fieldInfo] [(k, false)]).1.1.Directives =
            [] ∧
          (_fieldStageObject r newObjectName objectName [fieldInfo] [(k, false)]).1.2 =
            [(k, false)]) ∧
      (∀ r : Replacer, (getSchemaAdditions r).2.federationKeys = r.federationKeys) ∧
      (_containsExactWord "id kaLocale" "kaLocale" = true ∧
        _replaceExactWord "id kaLocale" "kaLocale" "locale" = "id locale" ∧
        _containsExactWord "id kaLocaleValue" "kaLocale" = false) ∧
      ((getSchemaAdditionsCore (processSchema NewReplacer [sampleKeyedObject])).1.map
          (fun e => e.1.Directives) = [[mkKey "id locale"]] ∧
        (getSchemaAdditionsCore (processSchema NewReplacer [sampleKeyedObject])).2.federationKeys =
          [("UserKaLocaleCourse", ["id kaLocale", "id kaLocaleValue"])]) := by
  refine ⟨?_, ?_, getSchemaAdditions_federationKeys, by decide, by decide⟩
  · intro r newObjectName objectName fieldInfo k hc
    constructor
    · simp [_fieldStageObject, _fieldStageFieldStep, _updateKeysForField, hc, mkKey]
    · simp [_fieldStageObject, _fieldStageFieldStep, _updateKeysForField, hc]
  · intro r newObjectName objectName fieldInfo k hc
    constructor
    · simp [_fieldStageObject, _fieldStageFieldStep, _updateKeysForField, hc]
    · simp [_fieldStageObject, _fieldStageFieldStep, _updateKeysForField, hc]

/-- Witness for C8_key_rewrite on concrete keys and a concrete renamed
field. -/
theorem C8_key_rewrite_witness :
    (_fieldStageObject NewReplacer "UserKaLocaleCourse" "UserKaLocaleCourse"
          [{ field := mkField "kaLocale" [] [] (.named "String" false), oldName := "locale",
             oldTypeName := "" }] [("id kaLocale", false)]).1.1.Directives =
        [mkKey "id locale"] ∧
      (_fieldStageObject NewReplacer "UserKaLocaleCourse" "UserKaLocaleCourse"
          [{ field := mkField "kaLocale" [] [] (.named "String" false), oldName := "locale",
             oldTypeName := "" }] [("id kaLocaleValue", false)]).1.2 =
        [("id kaLocaleValue", false)] ∧
      (getSchemaAdditions NewReplacer).2.federationKeys = NewReplacer.federationKeys := by
  refine ⟨?_, ?_, C8_key_rewrite.2.2.1 NewReplacer⟩
  · have h := (C8_key_rewrite.1 NewReplacer "UserKaLocaleCourse" "UserKaLocaleCourse"
      { field := mkField "kaLocale" [] [] (.named "String" false), oldName := "locale",
        oldTypeName := "" } "id kaLocale" (by decide)).1
    rw [h]
    decide
  · exact (C8_key_rewrite.2.1 NewReplacer "UserKaLocaleCourse" "UserKaLocaleCourse"
      { field := mkField "kaLocale" [] [] (.named "String" false), oldName := "locale",
        oldTypeName := "" } "id kaLocaleValue" (by decide)).2

/-! ## Claim C9 -/

/-- C9: for every Definition with renamed fields, the field stage emits the
old-field extension under both the new and the old type name exactly when
the Definition is itself renamed (recorded in the rename table), and under
the new name only otherwise; concretely, renaming Classroom (old name
StudentList) with field teacherKaid (old name coachKaid) yields the shadow
definition followed by field extensions under both Classroom and
StudentList. -/
theorem C9_doubling :
    (∀ (r : Replacer) (newObjectName oldName : String),
        lookupAssoc r.cacheReplacedTypes newObjectName = some oldName →
        ((_fieldStageOwner r newObjectName).1.map (fun e => (e.1.Name, e.2))) =
          [(newObjectName, true), (oldName, true)]) ∧
      (∀ (r : Replacer) (newObjectName : String),
        lookupAssoc r.cacheReplacedTypes newObjectName = none →
        ((_fieldStageOwner r newObjectName).1.map (fun e => (e.1.Name, e.2))) =
          [(newObjectName, true)]) ∧
      ((getSchemaAdditionsCore (processSchema NewReplacer [sampleClassroom])).1.map
          (fun e => (e.1.Name, e.2)) =
        [("StudentList", false), ("Classroom", true), ("StudentList", true)]) := by
  refine ⟨?_, ?_, by decide⟩
  · intro r newObjectName oldName hl
    simp [_fieldStageOwner, hl, _fieldStageObjectStep, _fieldStageObject]
  · intro r newObjectName hl
    simp [_fieldStageOwner, hl, _fieldStageObjectStep, _fieldStageObject]

/-- Witness for C9_doubling on a Replacer whose rename table does and does
not contain the owner. -/
theorem C9_doubling_witness :
    ((_fieldStageOwner (processSchema NewReplacer [sampleClassroom]) "Classroom").1.map
        (fun e => (e.1.Name, e.2)) = [("Classroom", true), ("StudentList", true)]) ∧
      ((_fieldStageOwner NewReplacer "Course").1.map (fun e => (e.1.Name, e.2)) =
        [("Course", true)]) :=
  ⟨C9_doubling.1 (processSchema NewReplacer [sampleClassroom]) "Classroom" "StudentList"
      (by decide),
    C9_doubling.2.1 NewReplacer "Course" (by decide)⟩

/-! ## Order lemmas for the sort comparator -/

theorem char_toNat_inj {a b : Char} (h : a.toNat = b.toNat) : a = b :=
  Char.ext (UInt32.ext h)

theorem charListLe_total : ∀ a b : List Char, charListLe a b = true ∨ charListLe b a = true := by
  intro a
  induction a with
  | nil => intro b; left; rfl
  | cons x xs ih =>
      intro b
      cases b with
      | nil => right; rfl
      | cons y ys =>
          by_cases hxy : x = y
          · subst hxy
            rcases ih ys with h | h
            · left; simpa [charListLe] using h
            · right; simpa [charListLe] using h
          · have hyx : y ≠ x := fun hc => hxy hc.symm
            have hne : x.toNat ≠ y.toNat := fun hc => hxy (char_toNat_inj hc)
            rcases Nat.lt_or_ge x.toNat y.toNat with h | h
            · left; simp [charListLe, hxy, h]
            · right
              have : y.toNat < x.toNat := lt_of_le_of_ne h (fun hc => hne hc.symm)
              simp [charListLe, hyx, this]

theorem charListLe_antisymm : ∀ a b : List Char,
    charListLe a b = true → charListLe b a = true → a = b := by
  intro a
  induction a with
  | nil =>
      intro b _ hba
      cases b with
      | nil => rfl
      | cons y ys => simp [charListLe] at hba
  | cons x xs ih =>
      intro b hab hba
      cases b with
      | nil => simp [charListLe] at hab
      | cons y ys =>
          by_cases hxy : x = y
          · subst hxy
            simp only [charListLe, if_pos rfl] at hab hba
            rw [ih ys hab hba]
          · have hyx : y ≠ x := fun hc => hxy hc.symm
            simp only [charListLe, if_neg hxy, decide_eq_true_eq] at hab
            simp only [charListLe, if_neg hyx, decide_eq_true_eq] at hba
            omega

theorem charListLe_trans : ∀ a b c : List Char,
    charListLe a b = true → charListLe b c = true → charListLe a c = true := by
  intro a
  induction a with
  | nil => intro b c _ _; rfl
  | cons x xs ih =>
      intro b c hab hbc
      cases b with
      | nil => simp [charListLe] at hab
      | cons y ys =>
          cases c with
          | nil => simp [charListLe] at hbc
          | cons z zs =>
              by_cases hxy : x = y <;> by_cases hyz : y = z
              · subst hxy; subst hyz
                simp only [charListLe, if_pos rfl] at hab hbc ⊢
                exact ih ys zs hab hbc
              · subst hxy
                simp only [charListLe, if_neg hyz] at hbc
                simp only [charListLe, if_neg hyz]
                exact hbc
              · subst hyz
                simp only [charListLe, if_neg hxy] at hab
                simp only [charListLe, if_neg hxy]
                exact hab
              · simp only [charListLe, if_neg hxy, decide_eq_true_eq] at hab
                simp only [charListLe, if_neg hyz, decide_eq_true_eq] at hbc
                have hxz : x ≠ z := by
                  intro hc
                  subst hc
                  have : x.toNat < x.toNat := Nat.lt_trans hab hbc
                  omega
                simp only [charListLe, if_neg hxz, decide_eq_true_eq]
                omega

theorem strLe_total (a b : String) : strLe a b = true ∨ strLe b a = true :=
  charListLe_total a.toList b.toList

theorem strLe_antisymm {a b : String} (hab : strLe a b = true) (hba : strLe b a = true) :
    a = b := by
  have h := charListLe_antisymm a.toList b.toList hab hba
  cases a with
  | mk da =>
      cases b with
      | mk db =>
          simpa [String.toList] using congrArg String.mk h

theorem strLe_trans {a b c : String} (hab : strLe a b = true) (hbc : strLe b c = true) :
    strLe a c = true :=
  charListLe_trans a.toList b.toList c.toList hab hbc

/-! ## Insertion sort: permutation, sortedness, uniqueness -/

theorem insertLe_perm {α : Type} (le : α → α → Bool) (a : α) :
    ∀ l : List α, (insertLe le a l).Perm (a :: l) := by
  intro l
  induction l with
  | nil => simp [insertLe]
  | cons b l ih =>
      simp only [insertLe]
      by_cases h : le a b = true
      · simp [h]
      · simp only [h, if_false]
        exact (ih.cons b).trans (List.Perm.swap a b l)

theorem sortLe_perm {α : Type} (le : α → α → Bool) :
    ∀ l : List α, (sortLe le l).Perm l := by
  intro l
  induction l with
  | nil => simp [sortLe]
  | cons a l ih =>
      simp only [sortLe]
      exact (insertLe_perm le a (sortLe le l)).trans (ih.cons a)

theorem insertLe_sorted {α : Type} (le : α → α → Bool)
    (htotal : ∀ a b, le a b = true ∨ le b a = true)
    (htrans : ∀ a b c, le a b = true → le b c = true → le a c = true) (a : α) :
    ∀ l : List α, List.Pairwise (fun x y => le x y = true) l →
      List.Pairwise (fun x y => le x y = true) (insertLe le a l) := by
  intro l
  induction l with
  | nil => intro _; simp [insertLe]
  | cons b l ih =>
      intro hp
      rcases List.pairwise_cons.mp hp with ⟨hb, hl⟩
      simp only [insertLe]
      by_cases h : le a b = true
      · simp only [h, if_true]
        refine List.pairwise_cons.mpr ⟨?_, hp⟩
        intro x hx
        rcases List.mem_cons.mp hx with hx | hx
        · subst hx; exact h
        · exact htrans a b x h (hb x hx)
      · simp only [h, if_false]
        have hba : le b a = true := by
          rcases htotal a b with h' | h'
          · exact absurd h' h
          · exact h'
        refine List.pairwise_cons.mpr ⟨?_, ih hl⟩
        intro x hx
        have hx' : x ∈ a :: l := (insertLe_perm le a l).mem_iff.mp hx
        rcases List.mem_cons.mp hx' with hx' | hx'
        · subst hx'; exact hba
        · exact hb x hx'

theorem sortLe_sorted {α : Type} (le : α → α → Bool)
    (htotal : ∀ a b, le a b = true ∨ le b a = true)
    (htrans : ∀ a b c, le a b = true → le b c = true → le a c = true) :
    ∀ l : List α, List.Pairwise (fun x y => le x y = true) (sortLe le l) := by
  intro l
  induction l with
  | nil => simp [sortLe]
  | cons a l ih =>
      simp only [sortLe]
      exact insertLe_sorted le htotal htrans a (sortLe le l) ih

/-- Sorting by a key that is unique across the list is a function of the
underlying multiset: two permuted lists with the same (duplicate-free) keys
sort to the same list. -/
theorem sortLe_key_eq {α : Type} (key : α → String) {l₁ l₂ : List α} (h : l₁.Perm l₂)
    (hn : (l₁.map key).Nodup) :
    sortLe (fun a b => strLe (key a) (key b)) l₁ =
      sortLe (fun a b => strLe (key a) (key b)) l₂ := by
  set le := fun a b => strLe (key a) (key b) with hle
  have htotal : ∀ a b, le a b = true ∨ le b a = true := fun a b => strLe_total _ _
  have htrans : ∀ a b c, le a b = true → le b c = true → le a c = true :=
    fun a b c hab hbc => strLe_trans hab hbc
  have hperm : (sortLe le l₁).Perm (sortLe le l₂) :=
    ((sortLe_perm le l₁).trans h).trans (sortLe_perm le l₂).symm
  have hkeys₁ : ((sortLe le l₁).map key).Nodup := by
    have : ((sortLe le l₁).map key).Perm (l₁.map key) := (sortLe_perm le l₁).map key
    exact this.nodup_iff.mpr hn
  have hkeys₂ : ((sortLe le l₂).map key).Nodup := (hperm.map key).nodup_iff.mp hkeys₁
  have hpne₁ : List.Pairwise (fun a b => key a ≠ key b) (sortLe le l₁) :=
    List.pairwise_map.mp hkeys₁
  have hpne₂ : List.Pairwise (fun a b => key a ≠ key b) (sortLe le l₂) :=
    List.pairwise_map.mp hkeys₂
  have hs₁ := (sortLe_sorted le htotal htrans l₁).and hpne₁
  have hs₂ := (sortLe_sorted le htotal htrans l₂).and hpne₂
  haveI : IsAntisymm α (fun a b => le a b = true ∧ key a ≠ key b) := by
    constructor
    intro a b hab hba
    exact absurd (strLe_antisymm hab.1 hba.1) hab.2
  exact List.eq_of_perm_of_sorted hperm hs₁ hs₂

/-- Specialization to string lists. -/
theorem sortLe_strings_eq {l₁ l₂ : List String} (h : l₁.Perm l₂) (hn : l₁.Nodup) :
    sortLe strLe l₁ = sortLe strLe l₂ := by
  have hn' : (l₁.map id).Nodup := by simpa using hn
  have h' := sortLe_key_eq id h hn'
  simpa [id] using h'

/-! ## Association list lookup under permutation -/

theorem mem_of_lookupAssoc {α : Type} :
    ∀ (m : List (String × α)) (k : String) (v : α), lookupAssoc m k = some v → (k, v) ∈ m := by
  intro m
  induction m with
  | nil => intro k v h; simp [lookupAssoc] at h
  | cons p rest ih =>
      intro k v h
      rcases p with ⟨k', v'⟩
      by_cases hk : k' = k
      · subst hk
        simp only [lookupAssoc, if_true, eq_self_iff_true, Option.some.injEq] at h
        subst h
        exact List.mem_cons_self _ _
      · simp only [lookupAssoc, if_neg hk] at h
        exact List.mem_cons_of_mem _ (ih k v h)

theorem lookupAssoc_of_mem {α : Type} :
    ∀ (m : List (String × α)), (assocKeys m).Nodup →
      ∀ (k : String) (v : α), (k, v) ∈ m → lookupAssoc m k = some v := by
  intro m
  induction m with
  | nil => intro _ k v h; simp at h
  | cons p rest ih =>
      intro hn k v h
      rcases p with ⟨k', v'⟩
      have hn' : k' ∉ assocKeys rest ∧ (assocKeys rest).Nodup := by
        simpa [assocKeys] using hn
      rcases List.mem_cons.mp h with h | h
      · rcases Prod.mk.injEq .. ▸ h with ⟨hk, hv⟩
        subst hk; subst hv
        simp [lookupAssoc]
      · have hk : k' ≠ k := by
          intro hc
          subst hc
          exact hn'.1 (by simpa [assocKeys] using List.mem_map_of_mem Prod.fst h)
        simp only [lookupAssoc, if_neg hk]
        exact ih hn'.2 k v h

theorem lookupAssoc_none_iff {α : Type} :
    ∀ (m : List (String × α)) (k : String), lookupAssoc m k = none ↔ k ∉ assocKeys m := by
  intro m
  induction m with
  | nil => intro k; simp [lookupAssoc, assocKeys]
  | cons p rest ih =>
      intro k
      rcases p with ⟨k', v'⟩
      by_cases hk : k' = k
      · subst hk
        simp [lookupAssoc, assocKeys]
      · simp [lookupAssoc, hk, assocKeys, ih k, Ne.symm hk]

/-- Lookup in a duplicate-free association list only depends on its
contents: permuted association lists answer every lookup identically. -/
theorem lookupAssoc_perm {α : Type} {m₁ m₂ : List (String × α)} (h : m₁.Perm m₂)
    (hn : (assocKeys m₁).Nodup) (k : String) : lookupAssoc m₁ k = lookupAssoc m₂ k := by
  have hn₂ : (assocKeys m₂).Nodup := ((h.map Prod.fst).nodup_iff).mp hn
  cases hl : lookupAssoc m₁ k with
  | some v =>
      have hm : (k, v) ∈ m₂ := h.mem_iff.mp (mem_of_lookupAssoc m₁ k v hl)
      exact (lookupAssoc_of_mem m₂ hn₂ k v hm).symm
  | none =>
      have hk : k ∉ assocKeys m₂ := by
        intro hc
        exact (lookupAssoc_none_iff m₁ k).mp hl (((h.map Prod.fst).mem_iff).mpr hc)
      exact ((lookupAssoc_none_iff m₂ k).mpr hk).symm

/-- Keys produced by a keyed filterMap form a sublist of the keys of the
underlying list. -/
theorem filterMap_fst_sublist {α β : Type} (key : α → String) (f : α → Option (String × β))
    (hf : ∀ a x, f a = some x → x.1 = key a) :
    ∀ l : List α, ((l.filterMap f).map Prod.fst).Sublist (l.map key) := by
  intro l
  induction l with
  | nil => simp
  | cons a l ih =>
      cases hfa : f a with
      | none =>
          simp only [List.filterMap_cons, hfa, List.map_cons]
          exact ih.cons (key a)
      | some x =>
          simp only [List.filterMap_cons, hfa, List.map_cons]
          rw [hf a x hfa]
          exact ih.cons₂ (key a)

/-! ## Association list algebra -/

theorem assocKeys_append {α : Type} (m₁ m₂ : List (String × α)) :
    assocKeys (m₁ ++ m₂) = assocKeys m₁ ++ assocKeys m₂ := by
  simp [assocKeys]

theorem not_mem_assocKeys_cons {α : Type} {k k' : String} {v : α} {rest : List (String × α)}
    (h : k ∉ assocKeys ((k', v) :: rest)) : k' ≠ k ∧ k ∉ assocKeys rest := by
  simp only [assocKeys, List.map_cons, List.mem_cons, not_or] at h
  exact ⟨fun hc => h.1 hc.symm, fun hc => h.2 (by simpa [assocKeys] using hc)⟩

theorem assocAppend_fresh {α : Type} (k : String) (v : α) :
    ∀ m : List (String × List α), k ∉ assocKeys m → assocAppend m k v = m ++ [(k, [v])] := by
  intro m
  induction m with
  | nil => intro _; rfl
  | cons p rest ih =>
      intro h
      rcases p with ⟨k', vs⟩
      have h' := not_mem_assocKeys_cons h
      simp only [assocAppend, if_neg h'.1, List.cons_append]
      rw [ih h'.2]

theorem assocAppend_last {α : Type} (k : String) (v : α) (vs : List α) :
    ∀ m : List (String × List α), k ∉ assocKeys m →
      assocAppend (m ++ [(k, vs)]) k v = m ++ [(k, vs ++ [v])] := by
  intro m
  induction m with
  | nil => intro _; simp [assocAppend]
  | cons p rest ih =>
      intro h
      rcases p with ⟨k', vs'⟩
      have h' := not_mem_assocKeys_cons h
      simp only [List.cons_append, assocAppend, if_neg h'.1]
      congr 1
      exact ih h'.2

theorem assocSet_fresh {α : Type} (k : String) (v : α) :
    ∀ m : List (String × α), k ∉ assocKeys m → assocSet m k v = m ++ [(k, v)] := by
  intro m
  induction m with
  | nil => intro _; rfl
  | cons p rest ih =>
      intro h
      rcases p with ⟨k', v'⟩
      have h' := not_mem_assocKeys_cons h
      simp only [assocSet, if_neg h'.1, List.cons_append]
      rw [ih h'.2]

/-! ## Step characterizations of the indexing pass -/

theorem foldl_errorAppend {β : Type} (step : Replacer → β → Replacer) (estep : β → List RErr)
    (h : ∀ r b, step r b = { r with errors := r.errors ++ estep b }) :
    ∀ (l : List β) (r : Replacer),
      l.foldl step r = { r with errors := r.errors ++ l.flatMap estep } := by
  intro l
  induction l with
  | nil => intro r; simp
  | cons b l ih =>
      intro r
      simp only [List.foldl_cons, h r b, ih, List.flatMap_cons, List.append_assoc]

theorem argScanStep_spec (typeName fieldName : String) (r : Replacer)
    (arg : ast.ArgumentDefinition) :
    _argScanStep typeName fieldName r arg =
      { r with errors := r.errors ++ argScanErrors typeName fieldName arg } := by
  unfold _argScanStep Replacer.getReplaceInfo argScanErrors
  cases hgr : GetReplaceInfo arg.Directives with
  | ok info => simp
  | error e =>
      by_cases hk : e.kind = ErrKind.notFound
      · simp [hk]
      · simp [hk]

theorem processField_spec (r : Replacer) (typeName : String) (kind : ast.DefinitionKind)
    (field : ast.FieldDefinition) :
    _processField r typeName kind field =
      { r with
          errors := r.errors ++ fieldErrors typeName kind field
          fields :=
            match fieldInfoOf field with
            | none => r.fields
            | some fi => assocAppend r.fields typeName fi } := by
  unfold _processField Replacer.getReplaceInfo
  cases hgr : GetReplaceInfo field.Directives with
  | error e =>
      have hfo : fieldInfoOf field = none := by
        simp [fieldInfoOf, renameInfoOf, hgr]
      have hfold := foldl_errorAppend (_argScanStep typeName field.Name)
        (argScanErrors typeName field.Name) (argScanStep_spec typeName field.Name)
        field.Arguments
      by_cases hk : e.kind = ErrKind.notFound
      · simp [hk, hfold, fieldErrors, hgr, hfo]
      · simp [hk, hfold, fieldErrors, hgr, hfo, List.append_assoc]
  | ok info =>
      have hfo : fieldInfoOf field =
          some { field := field, oldName := info.OldName, oldTypeName := info.OldTypeName } := by
        simp [fieldInfoOf, renameInfoOf, hgr]
      by_cases hio : kind = ast.InputObject
      · subst hio
        by_cases hnn : field.Typ.NonNull
        · by_cases htz : (_isNonListField field && !info.TreatZeroAsUnsetPresent) = true
          · simp [hnn, htz, fieldErrors, hgr, hfo, List.append_assoc]
          · simp [hnn, htz, fieldErrors, hgr, hfo]
        · by_cases htz : (_isNonListField field && !info.TreatZeroAsUnsetPresent) = true
          · simp [hnn, htz, fieldErrors, hgr, hfo]
          · simp [hnn, htz, fieldErrors, hgr, hfo]
      · simp [hio, fieldErrors, hgr, hfo]

theorem processEnumValue_spec (r : Replacer) (enumName : String)
    (enumValue : ast.EnumValueDefinition) :
    _processEnumValue r enumName enumValue =
      { r with
          errors := r.errors ++ enumValueErrors enumName enumValue
          enumValues :=
            match enumValueInfoOf enumValue with
            | none => r.enumValues
            | some i => assocAppend r.enumValues enumName i } := by
  unfold _processEnumValue Replacer.getReplaceInfo
  cases hgr : GetReplaceInfo enumValue.Directives with
  | error e =>
      have hio : enumValueInfoOf enumValue = none := by
        simp [enumValueInfoOf, renameInfoOf, hgr]
      by_cases hk : e.kind = ErrKind.notFound
      · simp [hk, enumValueErrors, hgr, hio]
      · simp [hk, enumValueErrors, hgr, hio]
  | ok info =>
      have hio : enumValueInfoOf enumValue =
          some { enumValue := enumValue, newName := enumValue.Name, oldName := info.OldName } := by
        simp [enumValueInfoOf, renameInfoOf, hgr]
      by_cases hov : info.OldTypeName ≠ ""
      · simp [hov, enumValueErrors, hgr, hio]
      · simp [hov, enumValueErrors, hgr, hio]

theorem processDefinition_spec (r : Replacer) (def_ : ast.Definition) :
    _processDefinition r def_ =
      { r with
          errors := r.errors ++ defDirErrors def_
          definitions := r.definitions ++ (defsEntry def_).toList
          cacheReplacedTypes :=
            match cacheEntry def_ with
            | none => r.cacheReplacedTypes
            | some e => assocSet r.cacheReplacedTypes e.1 e.2
          definitionKinds := assocSet r.definitionKinds def_.Name def_.Kind
          federationKeys := assocSet r.federationKeys def_.Name (_getFederationKeys def_) } := by
  unfold _processDefinition Replacer.getReplaceInfo
  cases hgr : GetReplaceInfo def_.Directives with
  | error e =>
      have hce : cacheEntry def_ = none := by simp [cacheEntry, renameInfoOf, hgr]
      have hde : defsEntry def_ = none := by simp [defsEntry, renameInfoOf, hgr]
      by_cases hk : e.kind = ErrKind.notFound
      · simp [hk, defDirErrors, hgr, hce, hde]
      · simp [hk, defDirErrors, hgr, hce, hde]
  | ok info =>
      have hce : cacheEntry def_ = some (def_.Name, info.OldName) := by
        simp [cacheEntry, renameInfoOf, hgr]
      have hde : defsEntry def_ = some { definition := def_, oldName := info.OldName } := by
        simp [defsEntry, renameInfoOf, hgr]
      by_cases hov : info.OldTypeName ≠ ""
      · simp [hov, defDirErrors, hgr, hce, hde]
      · simp [hov, defDirErrors, hgr, hce, hde]

/-! ## Fold characterization of pass 1 -/

theorem processFields_aux (typeName : String) (kind : ast.DefinitionKind) :
    ∀ (fs : List ast.FieldDefinition) (pre : List (String × List _fieldInfo))
      (acc : List _fieldInfo) (r : Replacer),
      typeName ∉ assocKeys pre →
      r.fields = pre ++ (if acc = [] then [] else [(typeName, acc)]) →
      fs.foldl (fun r field => _processField r typeName kind field) r =
        { r with
            errors := r.errors ++ fs.flatMap (fieldErrors typeName kind)
            fields :=
              pre ++
                (if acc ++ fs.filterMap fieldInfoOf = [] then []
                 else [(typeName, acc ++ fs.filterMap fieldInfoOf)]) } := by
  intro fs
  induction fs with
  | nil =>
      intro pre acc r hpre hf
      simp only [List.foldl_nil, List.flatMap_nil, List.append_nil, List.filterMap_nil]
      rw [← hf]
  | cons f fs ih =>
      intro pre acc r hpre hf
      simp only [List.foldl_cons]
      rw [processField_spec]
      cases hinfo : fieldInfoOf f with
      | none =>
          have := ih pre acc
            { r with
                errors := r.errors ++ fieldErrors typeName kind f
                fields := r.fields } hpre (by simpa using hf)
          rw [this]
          simp [List.append_assoc, hinfo]
      | some fi =>
          by_cases hacc : acc = []
          · subst hacc
            have hfields : r.fields = pre := by simpa using hf
            have hstep : assocAppend r.fields typeName fi = pre ++ [(typeName, [fi])] := by
              rw [hfields]
              exact assocAppend_fresh typeName fi pre hpre
            have := ih pre [fi]
              { r with
                  errors := r.errors ++ fieldErrors typeName kind f
                  fields := assocAppend r.fields typeName fi }
              hpre (by simp [hstep])
            rw [this]
            simp [List.append_assoc, hinfo]
          · have hfields : r.fields = pre ++ [(typeName, acc)] := by
              simpa [hacc] using hf
            have hstep : assocAppend r.fields typeName fi = pre ++ [(typeName, acc ++ [fi])] := by
              rw [hfields]
              exact assocAppend_last typeName fi acc pre hpre
            have := ih pre (acc ++ [fi])
              { r with
                  errors := r.errors ++ fieldErrors typeName kind f
                  fields := assocAppend r.fields typeName fi }
              hpre (by simp [hstep])
            rw [this]
            simp [List.append_assoc, hinfo, hacc]

theorem processFields_fold (typeName : String) (kind : ast.DefinitionKind)
    (fs : List ast.FieldDefinition) (r : Replacer) (h : typeName ∉ assocKeys r.fields) :
    fs.foldl (fun r field => _processField r typeName kind field) r =
      { r with
          errors := r.errors ++ fs.flatMap (fieldErrors typeName kind)
          fields :=
            r.fields ++
              (if fs.filterMap fieldInfoOf = [] then []
               else [(typeName, fs.filterMap fieldInfoOf)]) } := by
  have := processFields_aux typeName kind fs r.fields [] r h (by simp)
  simpa using this

theorem processEnumValues_aux (enumName : String) :
    ∀ (vs : List ast.EnumValueDefinition) (pre : List (String × List _enumValueInfo))
      (acc : List _enumValueInfo) (r : Replacer),
      enumName ∉ assocKeys pre →
      r.enumValues = pre ++ (if acc = [] then [] else [(enumName, acc)]) →
      vs.foldl (fun r enumValue => _processEnumValue r enumName enumValue) r =
        { r with
            errors := r.errors ++ vs.flatMap (enumValueErrors enumName)
            enumValues :=
              pre ++
                (if acc ++ vs.filterMap enumValueInfoOf = [] then []
                 else [(enumName, acc ++ vs.filterMap enumValueInfoOf)]) } := by
  intro vs
  induction vs with
  | nil =>
      intro pre acc r hpre hf
      simp only [List.foldl_nil, List.flatMap_nil, List.append_nil, List.filterMap_nil]
      rw [← hf]
  | cons v vs ih =>
      intro pre acc r hpre hf
      simp only [List.foldl_cons]
      rw [processEnumValue_spec]
      cases hinfo : enumValueInfoOf v with
      | none =>
          have := ih pre acc
            { r with
                errors := r.errors ++ enumValueErrors enumName v
                enumValues := r.enumValues } hpre (by simpa using hf)
          rw [this]
          simp [List.append_assoc, hinfo]
      | some i =>
          by_cases hacc : acc = []
          · subst hacc
            have hvals : r.enumValues = pre := by simpa using hf
            have hstep : assocAppend r.enumValues enumName i = pre ++ [(enumName, [i])] := by
              rw [hvals]
              exact assocAppend_fresh enumName i pre hpre
            have := ih pre [i]
              { r with
                  errors := r.errors ++ enumValueErrors enumName v
                  enumValues := assocAppend r.enumValues enumName i }
              hpre (by simp [hstep])
            rw [this]
            simp [List.append_assoc, hinfo]
          · have hvals : r.enumValues = pre ++ [(enumName, acc)] := by
              simpa [hacc] using hf
            have hstep : assocAppend r.enumValues enumName i = pre ++ [(enumName, acc ++ [i])] := by
              rw [hvals]
              exact assocAppend_last enumName i acc pre hpre
            have := ih pre (acc ++ [i])
              { r with
                  errors := r.errors ++ enumValueErrors enumName v
                  enumValues := assocAppend r.enumValues enumName i }
              hpre (by simp [hstep])
            rw [this]
            simp [List.append_assoc, hinfo, hacc]

theorem processEnumValues_fold (enumName : String) (vs : List ast.EnumValueDefinition)
    (r : Replacer) (h : enumName ∉ assocKeys r.enumValues) :
    vs.foldl (fun r enumValue => _processEnumValue r enumName enumValue) r =
      { r with
          errors := r.errors ++ vs.flatMap (enumValueErrors enumName)
          enumValues :=
            r.enumValues ++
              (if vs.filterMap enumValueInfoOf = [] then []
               else [(enumName, vs.filterMap enumValueInfoOf)]) } := by
  have := processEnumValues_aux enumName vs r.enumValues [] r h (by simp)
  simpa using this

/-- Pass 1, one definition, under freshness of its name in every index it
writes. -/
theorem pass1Step_spec (r : Replacer) (def_ : ast.Definition)
    (hfld : def_.Name ∉ assocKeys r.fields)
    (henu : def_.Name ∉ assocKeys r.enumValues)
    (hcac : def_.Name ∉ assocKeys r.cacheReplacedTypes)
    (hkin : def_.Name ∉ assocKeys r.definitionKinds)
    (hfed : def_.Name ∉ assocKeys r.federationKeys) :
    _processSchemaPass1Step r def_ =
      { r with
          errors := r.errors ++ defErrors def_
          fields := r.fields ++ (fieldsEntry def_).toList
          enumValues := r.enumValues ++ (enumEntry def_).toList
          definitions := r.definitions ++ (defsEntry def_).toList
          cacheReplacedTypes := r.cacheReplacedTypes ++ (cacheEntry def_).toList
          definitionKinds := r.definitionKinds ++ [(def_.Name, def_.Kind)]
          federationKeys := r.federationKeys ++ [(def_.Name, _getFederationKeys def_)] } := by
  unfold _processSchemaPass1Step _processSchemaPass1Members
  rw [processDefinition_spec]
  have hkin' := assocSet_fresh def_.Name def_.Kind r.definitionKinds hkin
  have hfed' := assocSet_fresh def_.Name (_getFederationKeys def_) r.federationKeys hfed
  have hcac' :
      (match cacheEntry def_ with
        | none => r.cacheReplacedTypes
        | some e => assocSet r.cacheReplacedTypes e.1 e.2) =
        r.cacheReplacedTypes ++ (cacheEntry def_).toList := by
    cases hce : cacheEntry def_ with
    | none => simp
    | some e =>
        rcases e with ⟨k, v⟩
        have hk : k = def_.Name := by
          cases hri : renameInfoOf def_.Directives with
          | none => simp [cacheEntry, hri] at hce
          | some i =>
              simp only [cacheEntry, hri, Option.map_some', Option.some.injEq,
                Prod.mk.injEq] at hce
              exact hce.1.symm
        subst hk
        simp [assocSet_fresh _ _ _ hcac]
  by_cases hk : hasFieldsKind def_.Kind
  · rw [if_pos (show def_.Kind = ast.Object ∨ def_.Kind = ast.InputObject ∨
      def_.Kind = ast.Interface from hk)]
    rw [processFields_fold def_.Name def_.Kind def_.Fields _ (by simpa using hfld)]
    have hfe : fieldsEntry def_ =
        if def_.Fields.filterMap fieldInfoOf = [] then none
        else some (def_.Name, def_.Fields.filterMap fieldInfoOf) := by
      simp [fieldsEntry, fieldsEntryList, hk]
    have hee : enumEntry def_ = none := by
      simp [enumEntry, enumEntryList, hk]
    by_cases hemp : def_.Fields.filterMap fieldInfoOf = []
    · simp [hcac', hkin', hfed', hfe, hee, hemp, defErrors, hk, List.append_assoc]
    · simp [hcac', hkin', hfed', hfe, hee, hemp, defErrors, hk, List.append_assoc]
  · rw [if_neg (show ¬(def_.Kind = ast.Object ∨ def_.Kind = ast.InputObject ∨
      def_.Kind = ast.Interface) from hk)]
    by_cases he : def_.Kind = ast.Enum
    · rw [if_pos he]
      rw [processEnumValues_fold def_.Name def_.EnumValues _ (by simpa using henu)]
      have hfe : fieldsEntry def_ = none := by
        simp [fieldsEntry, fieldsEntryList, hk]
      have hnfk : ¬ hasFieldsKind ast.Enum := by decide
      rw [he] at hkin'
      have hee : enumEntry def_ =
          if def_.EnumValues.filterMap enumValueInfoOf = [] then none
          else some (def_.Name, def_.EnumValues.filterMap enumValueInfoOf) := by
        simp [enumEntry, enumEntryList, hk, he, hnfk]
      by_cases hemp : def_.EnumValues.filterMap enumValueInfoOf = []
      · simp [hcac', hkin', hfed', hfe, hee, hemp, defErrors, hk, he, hnfk,
          List.append_assoc]
      · simp [hcac', hkin', hfed', hfe, hee, hemp, defErrors, hk, he, hnfk,
          List.append_assoc]
    · rw [if_neg he]
      have hfe : fieldsEntry def_ = none := by
        simp [fieldsEntry, fieldsEntryList, hk]
      have hee : enumEntry def_ = none := by
        simp [enumEntry, enumEntryList, hk, he]
      simp [hcac', hkin', hfed', hfe, hee, defErrors, hk, he]

theorem fieldsEntry_key (def_ : ast.Definition) :
    ∀ e, fieldsEntry def_ = some e → e.1 = def_.Name := by
  intro e h
  unfold fieldsEntry at h
  by_cases hemp : fieldsEntryList def_ = []
  · simp [hemp] at h
  · simp only [hemp, if_false, Option.some.injEq] at h
    rw [← h]

theorem enumEntry_key (def_ : ast.Definition) :
    ∀ e, enumEntry def_ = some e → e.1 = def_.Name := by
  intro e h
  unfold enumEntry at h
  by_cases hemp : enumEntryList def_ = []
  · simp [hemp] at h
  · simp only [hemp, if_false, Option.some.injEq] at h
    rw [← h]

theorem cacheEntry_key (def_ : ast.Definition) :
    ∀ e, cacheEntry def_ = some e → e.1 = def_.Name := by
  intro e h
  unfold cacheEntry at h
  cases hri : renameInfoOf def_.Directives with
  | none => rw [hri] at h; simp at h
  | some i =>
      rw [hri] at h
      simp only [Option.map_some', Option.some.injEq] at h
      rw [← h]

theorem implEntry_key (cache : List (String × String)) (def_ : ast.Definition) :
    ∀ e, implEntry cache def_ = some e → e.1 = def_.Name := by
  intro e h
  unfold implEntry at h
  by_cases hc : def_.Kind = ast.Object ∧ implValues cache def_ ≠ []
  · rw [if_pos hc] at h
    injection h with h2
    rw [← h2]
  · simp [hc] at h

theorem unionEntry_key (cache : List (String × String)) (def_ : ast.Definition) :
    ∀ e, unionEntry cache def_ = some e → e.1 = def_.Name := by
  intro e h
  unfold unionEntry at h
  by_cases hc : def_.Kind = ast.Union ∧ unionValues cache def_ ≠ []
  · rw [if_pos hc] at h
    injection h with h2
    rw [← h2]
  · simp [hc] at h

theorem mem_assocKeys_toList {α : Type} {entry : Option (String × α)} {name : String}
    (hkey : ∀ e, entry = some e → e.1 = name) :
    ∀ x ∈ assocKeys entry.toList, x = name := by
  intro x hx
  cases he : entry with
  | none => rw [he] at hx; simp [assocKeys] at hx
  | some e =>
      rw [he] at hx
      simp only [Option.toList_some, assocKeys, List.map_cons, List.map_nil,
        List.mem_singleton] at hx
      rw [hx, hkey e he]

theorem toList_append_filterMap {α β : Type} (f : α → Option β) (a : α) (l : List α) :
    (f a).toList ++ l.filterMap f = (a :: l).filterMap f := by
  cases h : f a <;> simp [h]

theorem pass1_fold :
    ∀ (L : List ast.Definition) (r : Replacer),
      (∀ d ∈ L,
        d.Name ∉ assocKeys r.fields ∧ d.Name ∉ assocKeys r.enumValues ∧
        d.Name ∉ assocKeys r.cacheReplacedTypes ∧ d.Name ∉ assocKeys r.definitionKinds ∧
        d.Name ∉ assocKeys r.federationKeys) →
      (L.map ast.Definition.Name).Nodup →
      L.foldl _processSchemaPass1Step r =
        { r with
            errors := r.errors ++ L.flatMap defErrors
            fields := r.fields ++ L.filterMap fieldsEntry
            enumValues := r.enumValues ++ L.filterMap enumEntry
            definitions := r.definitions ++ L.filterMap defsEntry
            cacheReplacedTypes := r.cacheReplacedTypes ++ L.filterMap cacheEntry
            definitionKinds := r.definitionKinds ++ L.map (fun d => (d.Name, d.Kind))
            federationKeys :=
              r.federationKeys ++ L.map (fun d => (d.Name, _getFederationKeys d)) } := by
  intro L
  induction L with
  | nil =>
      intro r _ _
      simp
  | cons d L ih =>
      intro r hfr hnd
      have hd := hfr d (List.mem_cons_self d L)
      have hstep := pass1Step_spec r d hd.1 hd.2.1 hd.2.2.1 hd.2.2.2.1 hd.2.2.2.2
      simp only [List.foldl_cons]
      rw [hstep]
      have hnd' : d.Name ∉ L.map ast.Definition.Name ∧ (L.map ast.Definition.Name).Nodup := by
        rw [List.map_cons] at hnd
        exact List.nodup_cons.mp hnd
      have hndTail : (L.map ast.Definition.Name).Nodup := hnd'.2
      have hdiff : ∀ d' ∈ L, d'.Name ≠ d.Name := by
        intro d' hd' hc
        exact hnd'.1 (hc ▸ List.mem_map_of_mem ast.Definition.Name hd')
      have hfr' : ∀ d' ∈ L,
          d'.Name ∉ assocKeys ({ r with
              errors := r.errors ++ defErrors d
              fields := r.fields ++ (fieldsEntry d).toList
              enumValues := r.enumValues ++ (enumEntry d).toList
              definitions := r.definitions ++ (defsEntry d).toList
              cacheReplacedTypes := r.cacheReplacedTypes ++ (cacheEntry d).toList
              definitionKinds := r.definitionKinds ++ [(d.Name, d.Kind)]
              federationKeys :=
                r.federationKeys ++ [(d.Name, _getFederationKeys d)] } : Replacer).fields ∧
          d'.Name ∉ assocKeys ({ r with
              errors := r.errors ++ defErrors d
              fields := r.fields ++ (fieldsEntry d).toList
              enumValues := r.enumValues ++ (enumEntry d).toList
              definitions := r.definitions ++ (defsEntry d).toList
              cacheReplacedTypes := r.cacheReplacedTypes ++ (cacheEntry d).toList
              definitionKinds := r.definitionKinds ++ [(d.Name, d.Kind)]
              federationKeys :=
                r.federationKeys ++ [(d.Name, _getFederationKeys d)] } : Replacer).enumValues ∧
          d'.Name ∉ assocKeys (r.cacheReplacedTypes ++ (cacheEntry d).toList) ∧
          d'.Name ∉ assocKeys (r.definitionKinds ++ [(d.Name, d.Kind)]) ∧
          d'.Name ∉ assocKeys (r.federationKeys ++ [(d.Name, _getFederationKeys d)]) := by
        intro d' hd'
        have hprev := hfr d' (List.mem_cons_of_mem d hd')
        have hne := hdiff d' hd'
        refine ⟨?_, ?_, ?_, ?_, ?_⟩
        · simp only [assocKeys_append, List.mem_append, not_or]
          exact ⟨hprev.1, fun hc =>
            hne (mem_assocKeys_toList (fieldsEntry_key d) _ hc)⟩
        · simp only [assocKeys_append, List.mem_append, not_or]
          exact ⟨hprev.2.1, fun hc =>
            hne (mem_assocKeys_toList (enumEntry_key d) _ hc)⟩
        · simp only [assocKeys_append, List.mem_append, not_or]
          exact ⟨hprev.2.2.1, fun hc =>
            hne (mem_assocKeys_toList (cacheEntry_key d) _ hc)⟩
        · simp only [assocKeys_append, List.mem_append, not_or]
          refine ⟨hprev.2.2.2.1, fun hc => hne ?_⟩
          simpa [assocKeys] using hc
        · simp only [assocKeys_append, List.mem_append, not_or]
          refine ⟨hprev.2.2.2.2, fun hc => hne ?_⟩
          simpa [assocKeys] using hc
      rw [ih _ hfr' hndTail]
      simp [List.append_assoc, toList_append_filterMap]

/-! ## Fold characterization of pass 2 -/

theorem implements_aux (objectName : String) :
    ∀ (ifaces : List String) (pre : List (String × List String)) (acc : List String)
      (r : Replacer),
      objectName ∉ assocKeys pre →
      r.extraImplements = pre ++ (if acc = [] then [] else [(objectName, acc)]) →
      ifaces.foldl (fun r iface => _processInterfaceImplementation r objectName iface) r =
        { r with
            extraImplements :=
              pre ++
                (if acc ++ ifaces.filterMap (lookupAssoc r.cacheReplacedTypes) = [] then []
                 else [(objectName,
                   acc ++ ifaces.filterMap (lookupAssoc r.cacheReplacedTypes))]) } := by
  intro ifaces
  induction ifaces with
  | nil =>
      intro pre acc r hpre hf
      simp only [List.foldl_nil, List.filterMap_nil, List.append_nil]
      rw [← hf]
  | cons iface ifaces ih =>
      intro pre acc r hpre hf
      simp only [List.foldl_cons]
      cases hl : lookupAssoc r.cacheReplacedTypes iface with
      | none =>
          have hstep0 : _processInterfaceImplementation r objectName iface = r := by
            unfold _processInterfaceImplementation
            rw [hl]
          rw [hstep0, ih pre acc r hpre hf]
          simp [hl]
      | some oldName =>
          have hstep0 : _processInterfaceImplementation r objectName iface =
              { r with extraImplements := assocAppend r.extraImplements objectName oldName } := by
            unfold _processInterfaceImplementation
            rw [hl]
          rw [hstep0]
          by_cases hacc : acc = []
          · subst hacc
            have hvals : r.extraImplements = pre := by simpa using hf
            have hstep : assocAppend r.extraImplements objectName oldName =
                pre ++ [(objectName, [oldName])] := by
              rw [hvals]
              exact assocAppend_fresh objectName oldName pre hpre
            have := ih pre [oldName]
              { r with extraImplements := assocAppend r.extraImplements objectName oldName }
              hpre (by simp [hstep])
            rw [this]
            simp [hl]
          · have hvals : r.extraImplements = pre ++ [(objectName, acc)] := by
              simpa [hacc] using hf
            have hstep : assocAppend r.extraImplements objectName oldName =
                pre ++ [(objectName, acc ++ [oldName])] := by
              rw [hvals]
              exact assocAppend_last objectName oldName acc pre hpre
            have := ih pre (acc ++ [oldName])
              { r with extraImplements := assocAppend r.extraImplements objectName oldName }
              hpre (by simp [hstep])
            rw [this]
            simp [hl, hacc]

theorem unionMembers_aux (unionName : String) :
    ∀ (members : List String) (pre : List (String × List String)) (acc : List String)
      (r : Replacer),
      unionName ∉ assocKeys pre →
      r.extraUnionMembers = pre ++ (if acc = [] then [] else [(unionName, acc)]) →
      members.foldl (fun r memberName => _processUnionMember r unionName memberName) r =
        { r with
            extraUnionMembers :=
              pre ++
                (if acc ++ members.filterMap (lookupAssoc r.cacheReplacedTypes) = [] then []
                 else [(unionName,
                   acc ++ members.filterMap (lookupAssoc r.cacheReplacedTypes))]) } := by
  intro members
  induction members with
  | nil =>
      intro pre acc r hpre hf
      simp only [List.foldl_nil, List.filterMap_nil, List.append_nil]
      rw [← hf]
  | cons memberName members ih =>
      intro pre acc r hpre hf
      simp only [List.foldl_cons]
      cases hl : lookupAssoc r.cacheReplacedTypes memberName with
      | none =>
          have hstep0 : _processUnionMember r unionName memberName = r := by
            unfold _processUnionMember
            rw [hl]
          rw [hstep0, ih pre acc r hpre hf]
          simp [hl]
      | some oldName =>
          have hstep0 : _processUnionMember r unionName memberName =
              { r with extraUnionMembers := assocAppend r.extraUnionMembers unionName oldName } := by
            unfold _processUnionMember
            rw [hl]
          rw [hstep0]
          by_cases hacc : acc = []
          · subst hacc
            have hvals : r.extraUnionMembers = pre := by simpa using hf
            have hstep : assocAppend r.extraUnionMembers unionName oldName =
                pre ++ [(unionName, [oldName])] := by
              rw [hvals]
              exact assocAppend_fresh unionName oldName pre hpre
            have := ih pre [oldName]
              { r with extraUnionMembers := assocAppend r.extraUnionMembers unionName oldName }
              hpre (by simp [hstep])
            rw [this]
            simp [hl]
          · have hvals : r.extraUnionMembers = pre ++ [(unionName, acc)] := by
              simpa [hacc] using hf
            have hstep : assocAppend r.extraUnionMembers unionName oldName =
                pre ++ [(unionName, acc ++ [oldName])] := by
              rw [hvals]
              exact assocAppend_last unionName oldName acc pre hpre
            have := ih pre (acc ++ [oldName])
              { r with extraUnionMembers := assocAppend r.extraUnionMembers unionName oldName }
              hpre (by simp [hstep])
            rw [this]
            simp [hl, hacc]

theorem pass2Step_spec (r : Replacer) (def_ : ast.Definition)
    (himp : def_.Name ∉ assocKeys r.extraImplements)
    (huni : def_.Name ∉ assocKeys r.extraUnionMembers) :
    _processSchemaPass2Step r def_ =
      { r with
          extraImplements :=
            r.extraImplements ++ (implEntry r.cacheReplacedTypes def_).toList
          extraUnionMembers :=
            r.extraUnionMembers ++ (unionEntry r.cacheReplacedTypes def_).toList } := by
  unfold _processSchemaPass2Step
  by_cases ho : def_.Kind = ast.Object
  · rw [if_pos ho]
    have := implements_aux def_.Name def_.Interfaces r.extraImplements [] r himp (by simp)
    rw [this]
    have hu : unionEntry r.cacheReplacedTypes def_ = none := by
      unfold unionEntry
      rw [if_neg]
      intro hc
      rw [ho] at hc
      exact absurd hc.1 (by decide)
    have hi : implEntry r.cacheReplacedTypes def_ =
        if def_.Interfaces.filterMap (lookupAssoc r.cacheReplacedTypes) = [] then none
        else some (def_.Name, def_.Interfaces.filterMap (lookupAssoc r.cacheReplacedTypes)) := by
      unfold implEntry implValues
      by_cases hemp : def_.Interfaces.filterMap (lookupAssoc r.cacheReplacedTypes) = []
      · simp [ho, hemp]
      · simp [ho, hemp]
    by_cases hemp : def_.Interfaces.filterMap (lookupAssoc r.cacheReplacedTypes) = []
    · simp [hi, hu, hemp]
    · simp [hi, hu, hemp]
  · rw [if_neg ho]
    have hi : implEntry r.cacheReplacedTypes def_ = none := by
      unfold implEntry
      rw [if_neg]
      intro hc
      exact ho hc.1
    by_cases hun : def_.Kind = ast.Union
    · rw [if_pos hun]
      have := unionMembers_aux def_.Name def_.Types r.extraUnionMembers [] r huni (by simp)
      rw [this]
      have hu : unionEntry r.cacheReplacedTypes def_ =
          if def_.Types.filterMap (lookupAssoc r.cacheReplacedTypes) = [] then none
          else some (def_.Name, def_.Types.filterMap (lookupAssoc r.cacheReplacedTypes)) := by
        unfold unionEntry unionValues
        by_cases hemp : def_.Types.filterMap (lookupAssoc r.cacheReplacedTypes) = []
        · simp [hun, hemp]
        · simp [hun, hemp]
      by_cases hemp : def_.Types.filterMap (lookupAssoc r.cacheReplacedTypes) = []
      · simp [hi, hu, hemp]
      · simp [hi, hu, hemp]
    · rw [if_neg hun]
      have hu : unionEntry r.cacheReplacedTypes def_ = none := by
        unfold unionEntry
        rw [if_neg]
        intro hc
        exact hun hc.1
      simp [hi, hu]

/-- Pass 2 leaves every component except the two backfill indices
untouched, and those accumulate one entry per definition, computed against
the (constant) rename table. -/
theorem pass2_fold :
    ∀ (L : List ast.Definition) (r : Replacer),
      (∀ d ∈ L,
        d.Name ∉ assocKeys r.extraImplements ∧ d.Name ∉ assocKeys r.extraUnionMembers) →
      (L.map ast.Definition.Name).Nodup →
      L.foldl _processSchemaPass2Step r =
        { r with
            extraImplements :=
              r.extraImplements ++ L.filterMap (implEntry r.cacheReplacedTypes)
            extraUnionMembers :=
              r.extraUnionMembers ++ L.filterMap (unionEntry r.cacheReplacedTypes) } := by
  intro L
  induction L with
  | nil =>
      intro r _ _
      simp
  | cons d L ih =>
      intro r hfr hnd
      have hd := hfr d (List.mem_cons_self d L)
      have hstep := pass2Step_spec r d hd.1 hd.2
      simp only [List.foldl_cons]
      rw [hstep]
      have hnd' : d.Name ∉ L.map ast.Definition.Name ∧ (L.map ast.Definition.Name).Nodup := by
        rw [List.map_cons] at hnd
        exact List.nodup_cons.mp hnd
      have hdiff : ∀ d' ∈ L, d'.Name ≠ d.Name := by
        intro d' hd' hc
        exact hnd'.1 (hc ▸ List.mem_map_of_mem ast.Definition.Name hd')
      have hfr' : ∀ d' ∈ L,
          d'.Name ∉ assocKeys (r.extraImplements ++ (implEntry r.cacheReplacedTypes d).toList) ∧
          d'.Name ∉ assocKeys (r.extraUnionMembers ++ (unionEntry r.cacheReplacedTypes d).toList) := by
        intro d' hd'
        have hprev := hfr d' (List.mem_cons_of_mem d hd')
        have hne := hdiff d' hd'
        constructor
        · simp only [assocKeys_append, List.mem_append, not_or]
          exact ⟨hprev.1, fun hc =>
            hne (mem_assocKeys_toList (implEntry_key r.cacheReplacedTypes d) _ hc)⟩
        · simp only [assocKeys_append, List.mem_append, not_or]
          exact ⟨hprev.2, fun hc =>
            hne (mem_assocKeys_toList (unionEntry_key r.cacheReplacedTypes d) _ hc)⟩
      rw [ih _ hfr' hnd'.2]
      simp [List.append_assoc, toList_append_filterMap]

/-- processSchema on a fresh Replacer computes the canonical index state,
definition by definition, provided the schema's definition names are
distinct (they are: Go's schema.Types is a map keyed by name). -/
theorem processSchema_canonical (L : List ast.Definition)
    (hnd : (L.map ast.Definition.Name).Nodup) :
    processSchema NewReplacer L = canonicalReplacer L := by
  have e1 : processSchema NewReplacer L =
      L.foldl _processSchemaPass2Step
        (L.foldl _processSchemaPass1Step { NewReplacer with hasProcessedSchema := true }) := rfl
  rw [e1, pass1_fold L { NewReplacer with hasProcessedSchema := true }
    (by intro d _; simp [NewReplacer, assocKeys]) hnd]
  refine (pass2_fold L _ ?_ hnd).trans ?_
  · intro d _
    constructor
    · simp [NewReplacer, assocKeys]
    · simp [NewReplacer, assocKeys]
  · simp [NewReplacer, canonicalReplacer]

/-! ## Reader-form characterization of the field stage -/

theorem oldFieldArgStep_spec (acc : List ast.ArgumentDefinition × Replacer)
    (argument : ast.ArgumentDefinition) :
    _oldFieldArgStep acc argument =
      (acc.1 ++ [_oldFieldArgOut argument],
        { acc.2 with errors := acc.2.errors ++ extractErrors argument.Directives }) := by
  unfold _oldFieldArgStep Replacer.getReplaceInfo
  cases hgr : GetReplaceInfo argument.Directives with
  | error e =>
      have ho : _oldFieldArgOut argument = argument := by
        simp [_oldFieldArgOut, renameInfoOf, hgr]
      by_cases hk : e.kind = ErrKind.notFound
      · simp [hk, ho, extractErrors, hgr]
      · simp [hk, ho, extractErrors, hgr]
  | ok info =>
      have ho : _oldFieldArgOut argument =
          (if info.OldTypeName ≠ "" then
            { argument with
                Name := info.OldName
                Directives := _removeReplacesDirective argument.Directives
                Typ := _updateType argument.Typ info.OldTypeName }
          else
            { argument with
                Name := info.OldName
                Directives := _removeReplacesDirective argument.Directives }) := by
        simp only [_oldFieldArgOut, renameInfoOf, hgr]
      by_cases hov : info.OldTypeName ≠ ""
      · simp [ho, hov, extractErrors, hgr]
      · simp [ho, hov, extractErrors, hgr]

theorem oldFieldArgs_fold :
    ∀ (args : List ast.ArgumentDefinition) (l : List ast.ArgumentDefinition) (r : Replacer),
      args.foldl _oldFieldArgStep (l, r) =
        (l ++ args.map _oldFieldArgOut,
          { r with
              errors := r.errors ++ args.flatMap (fun a => extractErrors a.Directives) }) := by
  intro args
  induction args with
  | nil => intro l r; simp
  | cons a args ih =>
      intro l r
      simp only [List.foldl_cons, oldFieldArgStep_spec]
      rw [ih (l ++ [_oldFieldArgOut a])
        { r with errors := r.errors ++ extractErrors a.Directives }]
      simp [List.append_assoc]

theorem synthesizeOldField_spec (r : Replacer) (newObjectName : String)
    (fieldInfo : _fieldInfo) :
    _synthesizeOldField r newObjectName fieldInfo =
      (_oldFieldPure (lookupAssoc r.definitionKinds newObjectName) fieldInfo,
        { r with errors := r.errors ++ _oldFieldArgErrs fieldInfo }) := by
  unfold _synthesizeOldField _oldFieldPure _oldFieldArgErrs
  rw [oldFieldArgs_fold]
  simp [_goFieldDirective]

theorem fieldStageFields_fold (newObjectName : String) :
    ∀ (fields : List _fieldInfo) (accF : List ast.FieldDefinition)
      (keys : List (String × Bool)) (r : Replacer),
      fields.foldl (_fieldStageFieldStep newObjectName) (accF, keys, r) =
        ((fields.foldl (_fieldStagePureStep (lookupAssoc r.definitionKinds newObjectName))
            (accF, keys)).1,
          (fields.foldl (_fieldStagePureStep (lookupAssoc r.definitionKinds newObjectName))
            (accF, keys)).2,
          { r with errors := r.errors ++ _fieldStageObjectErrs fields }) := by
  intro fields
  induction fields with
  | nil =>
      intro accF keys r
      simp [_fieldStageObjectErrs]
  | cons fi fields ih =>
      intro accF keys r
      simp only [List.foldl_cons]
      have hstep : _fieldStageFieldStep newObjectName (accF, keys, r) fi =
          (accF ++ [_oldFieldPure (lookupAssoc r.definitionKinds newObjectName) fi],
            _updateKeysForField keys fi.field.Name fi.oldName,
            { r with errors := r.errors ++ _oldFieldArgErrs fi }) := by
        unfold _fieldStageFieldStep
        rw [synthesizeOldField_spec]
      rw [hstep]
      rw [ih (accF ++ [_oldFieldPure (lookupAssoc r.definitionKinds newObjectName) fi])
        (_updateKeysForField keys fi.field.Name fi.oldName)
        { r with errors := r.errors ++ _oldFieldArgErrs fi }]
      simp [_fieldStagePureStep, _fieldStageObjectErrs, List.append_assoc]

theorem fieldStageObject_spec (r : Replacer) (newObjectName objectName : String)
    (fields : List _fieldInfo) (keys : List (String × Bool)) :
    _fieldStageObject r newObjectName objectName fields keys =
      (_fieldStageObjectPure (lookupAssoc r.definitionKinds newObjectName) objectName
          fields keys,
        { r with errors := r.errors ++ _fieldStageObjectErrs fields }) := by
  unfold _fieldStageObject _fieldStageObjectPure
  rw [fieldStageFields_fold]
  simp [_keyDirectives]

theorem fieldStageOwnerNames_fold (newObjectName : String) (fields : List _fieldInfo) :
    ∀ (names : List String) (accE : List (ast.Definition × Bool))
      (keys : List (String × Bool)) (r : Replacer),
      names.foldl (_fieldStageObjectStep newObjectName fields) (accE, keys, r) =
        ((names.foldl
            (_fieldStageOwnerPureStep (lookupAssoc r.definitionKinds newObjectName) fields)
            (accE, keys)).1,
          (names.foldl
            (_fieldStageOwnerPureStep (lookupAssoc r.definitionKinds newObjectName) fields)
            (accE, keys)).2,
          { r with
              errors :=
                r.errors ++ names.flatMap (fun _ => _fieldStageObjectErrs fields) }) := by
  intro names
  induction names with
  | nil =>
      intro accE keys r
      simp
  | cons objectName names ih =>
      intro accE keys r
      simp only [List.foldl_cons]
      have hstep : _fieldStageObjectStep newObjectName fields (accE, keys, r) objectName =
          (accE ++
              [((_fieldStageObjectPure (lookupAssoc r.definitionKinds newObjectName)
                  objectName fields keys).1, true)],
            (_fieldStageObjectPure (lookupAssoc r.definitionKinds newObjectName) objectName
              fields keys).2,
            { r with errors := r.errors ++ _fieldStageObjectErrs fields }) := by
        unfold _fieldStageObjectStep
        rw [fieldStageObject_spec]
      rw [hstep]
      rw [ih _ _ { r with errors := r.errors ++ _fieldStageObjectErrs fields }]
      simp [_fieldStageOwnerPureStep, List.append_assoc]

theorem fieldStageOwner_spec (r : Replacer) (newObjectName : String) :
    _fieldStageOwner r newObjectName =
      (_fieldStageOwnerPure (lookupAssoc r.definitionKinds newObjectName)
          (lookupAssoc r.fields newObjectName)
          (lookupAssoc r.cacheReplacedTypes newObjectName)
          (lookupAssoc r.federationKeys newObjectName) newObjectName,
        { r with
            errors :=
              r.errors ++
                _fieldStageOwnerErrs (lookupAssoc r.fields newObjectName)
                  (lookupAssoc r.cacheReplacedTypes newObjectName) newObjectName }) := by
  unfold _fieldStageOwner _fieldStageOwnerPure _fieldStageOwnerErrs _fieldStageOwnerAllNames
  cases hc : lookupAssoc r.cacheReplacedTypes newObjectName with
  | none => simp only [fieldStageOwnerNames_fold]
  | some oldName => simp only [fieldStageOwnerNames_fold]

theorem fieldOwners_fold_spec :
    ∀ (names : List String) (accE : List (ast.Definition × Bool)) (r : Replacer),
      names.foldl _fieldOwnersStep (accE, r) =
        (accE ++
            names.flatMap
              (fun n =>
                _fieldStageOwnerPure (lookupAssoc r.definitionKinds n)
                  (lookupAssoc r.fields n) (lookupAssoc r.cacheReplacedTypes n)
                  (lookupAssoc r.federationKeys n) n),
          { r with
              errors :=
                r.errors ++
                  names.flatMap
                    (fun n =>
                      _fieldStageOwnerErrs (lookupAssoc r.fields n)
                        (lookupAssoc r.cacheReplacedTypes n) n) }) := by
  intro names
  induction names with
  | nil =>
      intro accE r
      simp
  | cons n names ih =>
      intro accE r
      simp only [List.foldl_cons]
      have hstep : _fieldOwnersStep (accE, r) n =
          (accE ++
              _fieldStageOwnerPure (lookupAssoc r.definitionKinds n) (lookupAssoc r.fields n)
                (lookupAssoc r.cacheReplacedTypes n) (lookupAssoc r.federationKeys n) n,
            { r with
                errors :=
                  r.errors ++
                    _fieldStageOwnerErrs (lookupAssoc r.fields n)
                      (lookupAssoc r.cacheReplacedTypes n) n }) := by
        unfold _fieldOwnersStep
        rw [fieldStageOwner_spec]
      rw [hstep]
      rw [ih _ _]
      simp [List.append_assoc]

/-- The read-only stages do not depend on the errors, the definitions list
or the processed flag of the state. -/
theorem enumStageOwner_state (r₀ : Replacer) (errs : List RErr) (ds : List _definitionInfo)
    (b : Bool) :
    _enumStageOwner
      { errors := errs, fields := r₀.fields, definitions := ds,
        enumValues := r₀.enumValues, extraImplements := r₀.extraImplements,
        extraUnionMembers := r₀.extraUnionMembers,
        cacheReplacedTypes := r₀.cacheReplacedTypes, definitionKinds := r₀.definitionKinds,
        federationKeys := r₀.federationKeys, hasProcessedSchema := b } =
      _enumStageOwner r₀ := rfl

theorem implementsStageOwner_state (r₀ : Replacer) (errs : List RErr)
    (ds : List _definitionInfo) (b : Bool) :
    _implementsStageOwner
      { errors := errs, fields := r₀.fields, definitions := ds,
        enumValues := r₀.enumValues, extraImplements := r₀.extraImplements,
        extraUnionMembers := r₀.extraUnionMembers,
        cacheReplacedTypes := r₀.cacheReplacedTypes, definitionKinds := r₀.definitionKinds,
        federationKeys := r₀.federationKeys, hasProcessedSchema := b } =
      _implementsStageOwner r₀ := rfl

theorem unionStageOwner_state (r₀ : Replacer) (errs : List RErr) (ds : List _definitionInfo)
    (b : Bool) :
    _unionStageOwner
      { errors := errs, fields := r₀.fields, definitions := ds,
        enumValues := r₀.enumValues, extraImplements := r₀.extraImplements,
        extraUnionMembers := r₀.extraUnionMembers,
        cacheReplacedTypes := r₀.cacheReplacedTypes, definitionKinds := r₀.definitionKinds,
        federationKeys := r₀.federationKeys, hasProcessedSchema := b } =
      _unionStageOwner r₀ := rfl

/-- getSchemaAdditionsCore on an indexed Replacer, stage by stage: every
stage reads the state only through sorted key lists and lookups, and the
returned state differs from the input only in the sorted definitions list
and appended errors. -/
theorem core_output (r : Replacer) (hp : r.hasProcessedSchema = true) :
    getSchemaAdditionsCore r =
      ((sortLe (fun a b => strLe a.oldName b.oldName) r.definitions).map
          (fun definitionInfo => (_synthesizeDefinition definitionInfo).1) ++
        ((sortLe strLe (assocKeys r.fields)).flatMap
          (fun n =>
            _fieldStageOwnerPure (lookupAssoc r.definitionKinds n) (lookupAssoc r.fields n)
              (lookupAssoc r.cacheReplacedTypes n) (lookupAssoc r.federationKeys n) n) ++
        ((sortLe strLe (assocKeys r.enumValues)).flatMap (_enumStageOwner r) ++
        ((sortLe strLe (assocKeys r.extraImplements)).flatMap (_implementsStageOwner r) ++
        (sortLe strLe (assocKeys r.extraUnionMembers)).flatMap (_unionStageOwner r)))),
       { r with
           definitions := sortLe (fun a b => strLe a.oldName b.oldName) r.definitions
           errors :=
             r.errors ++
               (sortLe strLe (assocKeys r.fields)).flatMap
                 (fun n =>
                   _fieldStageOwnerErrs (lookupAssoc r.fields n)
                     (lookupAssoc r.cacheReplacedTypes n) n) }) := by
  unfold getSchemaAdditionsCore
  simp only [hp, Bool.not_true, Bool.false_eq_true, if_false]
  simp only [fieldOwners_fold_spec]
  simp only [enumStageOwner_state, implementsStageOwner_state, unionStageOwner_state]
  simp [List.append_assoc]

/-! ## Stage congruence under equal lookups -/

theorem enumStageOwner_congr {r₁ r₂ : Replacer} (n : String)
    (he : lookupAssoc r₁.enumValues n = lookupAssoc r₂.enumValues n)
    (hc : lookupAssoc r₁.cacheReplacedTypes n = lookupAssoc r₂.cacheReplacedTypes n) :
    _enumStageOwner r₁ n = _enumStageOwner r₂ n := by
  unfold _enumStageOwner
  rw [he, hc]

theorem implementsStageOwner_congr {r₁ r₂ : Replacer} (n : String)
    (hi : lookupAssoc r₁.extraImplements n = lookupAssoc r₂.extraImplements n)
    (hc : lookupAssoc r₁.cacheReplacedTypes n = lookupAssoc r₂.cacheReplacedTypes n) :
    _implementsStageOwner r₁ n = _implementsStageOwner r₂ n := by
  unfold _implementsStageOwner
  rw [hi, hc]

theorem unionStageOwner_congr {r₁ r₂ : Replacer} (n : String)
    (hu : lookupAssoc r₁.extraUnionMembers n = lookupAssoc r₂.extraUnionMembers n)
    (hc : lookupAssoc r₁.cacheReplacedTypes n = lookupAssoc r₂.cacheReplacedTypes n) :
    _unionStageOwner r₁ n = _unionStageOwner r₂ n := by
  unfold _unionStageOwner
  rw [hu, hc]

theorem assocKeys_eq {α : Type} (m : List (String × α)) : assocKeys m = m.map Prod.fst := rfl

theorem assocKeys_map_entry {β : Type} (g : ast.Definition → β) (L : List ast.Definition) :
    assocKeys (L.map (fun d => (d.Name, g d))) = L.map ast.Definition.Name := by
  simp [assocKeys, List.map_map, Function.comp]

theorem defsEntry_oldNames (L : List ast.Definition) :
    (L.filterMap defsEntry).map _definitionInfo.oldName =
      (L.filterMap cacheEntry).map Prod.snd := by
  induction L with
  | nil => rfl
  | cons d L ih =>
      cases h : renameInfoOf d.Directives with
      | none => simp [List.filterMap_cons, defsEntry, cacheEntry, h, ih]
      | some i => simp [List.filterMap_cons, defsEntry, cacheEntry, h, ih]

/-- Lookup equality for a keyed filterMap index, across two permuted schemas
with duplicate-free names. -/
theorem filterMap_entry_lookup_perm {β : Type} (f : ast.Definition → Option (String × β))
    (hf : ∀ d x, f d = some x → x.1 = d.Name) {L₁ L₂ : List ast.Definition}
    (hperm : L₁.Perm L₂) (hnames : (L₁.map ast.Definition.Name).Nodup) (k : String) :
    lookupAssoc (L₁.filterMap f) k = lookupAssoc (L₂.filterMap f) k := by
  refine lookupAssoc_perm (hperm.filterMap f) ?_ k
  rw [assocKeys_eq]
  exact (filterMap_fst_sublist ast.Definition.Name f hf L₁).nodup hnames

/-- Sorted key list equality for a keyed filterMap index. -/
theorem filterMap_entry_sortedKeys_perm {β : Type} (f : ast.Definition → Option (String × β))
    (hf : ∀ d x, f d = some x → x.1 = d.Name) {L₁ L₂ : List ast.Definition}
    (hperm : L₁.Perm L₂) (hnames : (L₁.map ast.Definition.Name).Nodup) :
    sortLe strLe (assocKeys (L₁.filterMap f)) = sortLe strLe (assocKeys (L₂.filterMap f)) := by
  refine sortLe_strings_eq ((hperm.filterMap f).map Prod.fst) ?_
  rw [assocKeys_eq]
  exact (filterMap_fst_sublist ast.Definition.Name f hf L₁).nodup hnames

/-- Unfolding of GetReplacesDirectiveUpdates (let-free form). -/
theorem GetReplacesDirectiveUpdates_eq (types : List ast.Definition) :
    GetReplacesDirectiveUpdates types =
      (if (getSchemaAdditions (processSchema NewReplacer types)).2.errors ≠ [] then
        ("", some (getSchemaAdditions (processSchema NewReplacer types)).2.errors)
       else ((getSchemaAdditions (processSchema NewReplacer types)).1, none)) := rfl

/-- Unfolding of getSchemaAdditions (let-free form). -/
theorem getSchemaAdditions_eq (r : Replacer) :
    getSchemaAdditions r =
      (expandTabs (String.join
          ((getSchemaAdditionsCore r).1.map (fun e => FormatDefinition e.1 e.2 ++ "\n"))),
        (getSchemaAdditionsCore r).2) := rfl

/-- Two permuted schemas declaring the same old name twice ("A" and "B" both
replace "Z"): both orders index and synthesize without error, yet the overlay
texts differ, refuting unconditional order independence. -/
theorem C10_order_counterexample :
    [sampleDupA, sampleDupB].Perm [sampleDupB, sampleDupA] ∧
    (GetReplacesDirectiveUpdates [sampleDupA, sampleDupB]).2 = none ∧
    (GetReplacesDirectiveUpdates [sampleDupB, sampleDupA]).2 = none ∧
    (GetReplacesDirectiveUpdates [sampleDupA, sampleDupB]).1 ≠
      (GetReplacesDirectiveUpdates [sampleDupB, sampleDupA]).1 := by
  refine ⟨?_, ?_, ?_, ?_⟩ <;> decide

/-- **C10.** Synthesis is deterministic up to the iteration order of the
schema's definition collection: for any two orderings of the same set of
definitions — with distinct definition names (Go's schema.Types is a map
keyed by name) and distinct declared old names (the injective rename table
the spec assumes) — GetReplacesDirectiveUpdates returns byte-identical
overlay text, because every emitted collection is sorted by name before
serialization.  (Without the injectivity proviso the sort is not keyed
uniquely and order can leak into output, see the counterexample.) -/
theorem C10_determinism_amended (L₁ L₂ : List ast.Definition) (hperm : L₁.Perm L₂)
    (hnames : (L₁.map ast.Definition.Name).Nodup)
    (holdNames : ((L₁.filterMap cacheEntry).map Prod.snd).Nodup) :
    (GetReplacesDirectiveUpdates L₁).1 = (GetReplacesDirectiveUpdates L₂).1 := by
  have hnames₂ : (L₂.map ast.Definition.Name).Nodup :=
    ((hperm.map ast.Definition.Name).nodup_iff).mp hnames
  have h₁ := processSchema_canonical L₁ hnames
  have h₂ := processSchema_canonical L₂ hnames₂
  -- Pointwise lookup agreement of every index of the two canonical states.
  have hfieldLookup : ∀ n, lookupAssoc (canonicalReplacer L₁).fields n =
      lookupAssoc (canonicalReplacer L₂).fields n :=
    fun n => filterMap_entry_lookup_perm fieldsEntry fieldsEntry_key hperm hnames n
  have hcacheLookup : ∀ n, lookupAssoc (canonicalReplacer L₁).cacheReplacedTypes n =
      lookupAssoc (canonicalReplacer L₂).cacheReplacedTypes n :=
    fun n => filterMap_entry_lookup_perm cacheEntry cacheEntry_key hperm hnames n
  have henumLookup : ∀ n, lookupAssoc (canonicalReplacer L₁).enumValues n =
      lookupAssoc (canonicalReplacer L₂).enumValues n :=
    fun n => filterMap_entry_lookup_perm enumEntry enumEntry_key hperm hnames n
  have hkindLookup : ∀ n, lookupAssoc (canonicalReplacer L₁).definitionKinds n =
      lookupAssoc (canonicalReplacer L₂).definitionKinds n := by
    intro n
    show lookupAssoc (L₁.map (fun d => (d.Name, d.Kind))) n =
      lookupAssoc (L₂.map (fun d => (d.Name, d.Kind))) n
    refine lookupAssoc_perm (hperm.map _) ?_ n
    rw [assocKeys_map_entry ast.Definition.Kind L₁]
    exact hnames
  have hfedLookup : ∀ n, lookupAssoc (canonicalReplacer L₁).federationKeys n =
      lookupAssoc (canonicalReplacer L₂).federationKeys n := by
    intro n
    show lookupAssoc (L₁.map (fun d => (d.Name, _getFederationKeys d))) n =
      lookupAssoc (L₂.map (fun d => (d.Name, _getFederationKeys d))) n
    refine lookupAssoc_perm (hperm.map _) ?_ n
    rw [assocKeys_map_entry _getFederationKeys L₁]
    exact hnames
  -- Pass-2 entries only consult the rename table through lookups, so they
  -- coincide pointwise for the two schemas.
  have himplfun : ∀ d, implEntry (L₁.filterMap cacheEntry) d =
      implEntry (L₂.filterMap cacheEntry) d := by
    intro d
    have hv : implValues (L₁.filterMap cacheEntry) d = implValues (L₂.filterMap cacheEntry) d :=
      List.filterMap_congr (fun a _ => hcacheLookup a)
    unfold implEntry
    rw [hv]
  have hunionfun : ∀ d, unionEntry (L₁.filterMap cacheEntry) d =
      unionEntry (L₂.filterMap cacheEntry) d := by
    intro d
    have hv : unionValues (L₁.filterMap cacheEntry) d = unionValues (L₂.filterMap cacheEntry) d :=
      List.filterMap_congr (fun a _ => hcacheLookup a)
    unfold unionEntry
    rw [hv]
  have himplLookup : ∀ n, lookupAssoc (canonicalReplacer L₁).extraImplements n =
      lookupAssoc (canonicalReplacer L₂).extraImplements n := by
    intro n
    show lookupAssoc (L₁.filterMap (implEntry (L₁.filterMap cacheEntry))) n =
      lookupAssoc (L₂.filterMap (implEntry (L₂.filterMap cacheEntry))) n
    rw [show L₂.filterMap (implEntry (L₂.filterMap cacheEntry)) =
        L₂.filterMap (implEntry (L₁.filterMap cacheEntry)) from
      List.filterMap_congr (fun d _ => (himplfun d).symm)]
    exact filterMap_entry_lookup_perm (implEntry (L₁.filterMap cacheEntry))
      (implEntry_key (L₁.filterMap cacheEntry)) hperm hnames n
  have hunionLookup : ∀ n, lookupAssoc (canonicalReplacer L₁).extraUnionMembers n =
      lookupAssoc (canonicalReplacer L₂).extraUnionMembers n := by
    intro n
    show lookupAssoc (L₁.filterMap (unionEntry (L₁.filterMap cacheEntry))) n =
      lookupAssoc (L₂.filterMap (unionEntry (L₂.filterMap cacheEntry))) n
    rw [show L₂.filterMap (unionEntry (L₂.filterMap cacheEntry)) =
        L₂.filterMap (unionEntry (L₁.filterMap cacheEntry)) from
      List.filterMap_congr (fun d _ => (hunionfun d).symm)]
    exact filterMap_entry_lookup_perm (unionEntry (L₁.filterMap cacheEntry))
      (unionEntry_key (L₁.filterMap cacheEntry)) hperm hnames n
  -- The five sorted owner lists coincide.
  have hdefs : sortLe (fun a b => strLe a.oldName b.oldName) (canonicalReplacer L₁).definitions =
      sortLe (fun a b => strLe a.oldName b.oldName) (canonicalReplacer L₂).definitions := by
    refine sortLe_key_eq _definitionInfo.oldName (hperm.filterMap defsEntry) ?_
    show ((L₁.filterMap defsEntry).map _definitionInfo.oldName).Nodup
    rw [defsEntry_oldNames]
    exact holdNames
  have hfieldsKeys : sortLe strLe (assocKeys (canonicalReplacer L₁).fields) =
      sortLe strLe (assocKeys (canonicalReplacer L₂).fields) :=
    filterMap_entry_sortedKeys_perm fieldsEntry fieldsEntry_key hperm hnames
  have henumKeys : sortLe strLe (assocKeys (canonicalReplacer L₁).enumValues) =
      sortLe strLe (assocKeys (canonicalReplacer L₂).enumValues) :=
    filterMap_entry_sortedKeys_perm enumEntry enumEntry_key hperm hnames
  have himplKeys : sortLe strLe (assocKeys (canonicalReplacer L₁).extraImplements) =
      sortLe strLe (assocKeys (canonicalReplacer L₂).extraImplements) := by
    show sortLe strLe (assocKeys (L₁.filterMap (implEntry (L₁.filterMap cacheEntry)))) =
      sortLe strLe (assocKeys (L₂.filterMap (implEntry (L₂.filterMap cacheEntry))))
    rw [show L₂.filterMap (implEntry (L₂.filterMap cacheEntry)) =
        L₂.filterMap (implEntry (L₁.filterMap cacheEntry)) from
      List.filterMap_congr (fun d _ => (himplfun d).symm)]
    exact filterMap_entry_sortedKeys_perm (implEntry (L₁.filterMap cacheEntry))
      (implEntry_key (L₁.filterMap cacheEntry)) hperm hnames
  have hunionKeys : sortLe strLe (assocKeys (canonicalReplacer L₁).extraUnionMembers) =
      sortLe strLe (assocKeys (canonicalReplacer L₂).extraUnionMembers) := by
    show sortLe strLe (assocKeys (L₁.filterMap (unionEntry (L₁.filterMap cacheEntry)))) =
      sortLe strLe (assocKeys (L₂.filterMap (unionEntry (L₂.filterMap cacheEntry))))
    rw [show L₂.filterMap (unionEntry (L₂.filterMap cacheEntry)) =
        L₂.filterMap (unionEntry (L₁.filterMap cacheEntry)) from
      List.filterMap_congr (fun d _ => (hunionfun d).symm)]
    exact filterMap_entry_sortedKeys_perm (unionEntry (L₁.filterMap cacheEntry))
      (unionEntry_key (L₁.filterMap cacheEntry)) hperm hnames
  -- The emitted stage segments coincide over the common sorted owner lists.
  have hsegF : (sortLe strLe (assocKeys (canonicalReplacer L₂).fields)).flatMap
      (fun n => _fieldStageOwnerPure (lookupAssoc (canonicalReplacer L₁).definitionKinds n)
        (lookupAssoc (canonicalReplacer L₁).fields n)
        (lookupAssoc (canonicalReplacer L₁).cacheReplacedTypes n)
        (lookupAssoc (canonicalReplacer L₁).federationKeys n) n) =
    (sortLe strLe (assocKeys (canonicalReplacer L₂).fields)).flatMap
      (fun n => _fieldStageOwnerPure (lookupAssoc (canonicalReplacer L₂).definitionKinds n)
        (lookupAssoc (canonicalReplacer L₂).fields n)
        (lookupAssoc (canonicalReplacer L₂).cacheReplacedTypes n)
        (lookupAssoc (canonicalReplacer L₂).federationKeys n) n) :=
    List.flatMap_congr
      (fun n _ => by rw [hkindLookup n, hfieldLookup n, hcacheLookup n, hfedLookup n])
  have hsegE : (sortLe strLe (assocKeys (canonicalReplacer L₂).enumValues)).flatMap
      (_enumStageOwner (canonicalReplacer L₁)) =
    (sortLe strLe (assocKeys (canonicalReplacer L₂).enumValues)).flatMap
      (_enumStageOwner (canonicalReplacer L₂)) :=
    List.flatMap_congr (fun n _ => enumStageOwner_congr n (henumLookup n) (hcacheLookup n))
  have hsegI : (sortLe strLe (assocKeys (canonicalReplacer L₂).extraImplements)).flatMap
      (_implementsStageOwner (canonicalReplacer L₁)) =
    (sortLe strLe (assocKeys (canonicalReplacer L₂).extraImplements)).flatMap
      (_implementsStageOwner (canonicalReplacer L₂)) :=
    List.flatMap_congr (fun n _ => implementsStageOwner_congr n (himplLookup n) (hcacheLookup n))
  have hsegU : (sortLe strLe (assocKeys (canonicalReplacer L₂).extraUnionMembers)).flatMap
      (_unionStageOwner (canonicalReplacer L₁)) =
    (sortLe strLe (assocKeys (canonicalReplacer L₂).extraUnionMembers)).flatMap
      (_unionStageOwner (canonicalReplacer L₂)) :=
    List.flatMap_congr (fun n _ => unionStageOwner_congr n (hunionLookup n) (hcacheLookup n))
  -- The emitted (definition, extend) sequences coincide.
  have hcoreEmit : (getSchemaAdditionsCore (canonicalReplacer L₁)).1 =
      (getSchemaAdditionsCore (canonicalReplacer L₂)).1 := by
    rw [core_output (canonicalReplacer L₁) rfl, core_output (canonicalReplacer L₂) rfl]
    dsimp only
    rw [hdefs, hfieldsKeys, henumKeys, himplKeys, hunionKeys, hsegF, hsegE, hsegI, hsegU]
  -- The synthesis error lists are empty together (pass-1 errors are a
  -- permutation of each other, synthesis errors are equal).
  have hbasePerm : ((canonicalReplacer L₁).errors).Perm ((canonicalReplacer L₂).errors) :=
    hperm.flatMap_right defErrors
  have herrsIff : ((getSchemaAdditionsCore (canonicalReplacer L₁)).2.errors = []) ↔
      ((getSchemaAdditionsCore (canonicalReplacer L₂)).2.errors = []) := by
    rw [core_output (canonicalReplacer L₁) rfl, core_output (canonicalReplacer L₂) rfl]
    dsimp only
    rw [hfieldsKeys]
    rw [show (sortLe strLe (assocKeys (canonicalReplacer L₂).fields)).flatMap
        (fun n => _fieldStageOwnerErrs (lookupAssoc (canonicalReplacer L₁).fields n)
          (lookupAssoc (canonicalReplacer L₁).cacheReplacedTypes n) n) =
      (sortLe strLe (assocKeys (canonicalReplacer L₂).fields)).flatMap
        (fun n => _fieldStageOwnerErrs (lookupAssoc (canonicalReplacer L₂).fields n)
          (lookupAssoc (canonicalReplacer L₂).cacheReplacedTypes n) n) from
      List.flatMap_congr (fun n _ => by rw [hfieldLookup n, hcacheLookup n])]
    simp only [List.append_eq_nil]
    refine and_congr ?_ Iff.rfl
    constructor
    · intro h
      have hp := hbasePerm.symm
      rw [h] at hp
      exact hp.eq_nil
    · intro h
      have hp := hbasePerm
      rw [h] at hp
      exact hp.eq_nil
  simp only [GetReplacesDirectiveUpdates_eq, h₁, h₂, getSchemaAdditions_eq, apply_ite Prod.fst]
  refine if_congr (not_congr herrsIff) rfl ?_
  rw [hcoreEmit]

/-- Concrete instance of C10\_determinism\_amended: swapping the renamed
Classroom object and the federation-keyed object leaves the overlay text
unchanged. -/
theorem C10_determinism_witness :
    [sampleClassroom, sampleKeyedObject].Perm [sampleKeyedObject, sampleClassroom] ∧
    ([sampleClassroom, sampleKeyedObject].map ast.Definition.Name).Nodup ∧
    (([sampleClassroom, sampleKeyedObject].filterMap cacheEntry).map Prod.snd).Nodup ∧
    (GetReplacesDirectiveUpdates [sampleClassroom, sampleKeyedObject]).1 =
      (GetReplacesDirectiveUpdates [sampleKeyedObject, sampleClassroom]).1 :=
  ⟨by decide, by decide, by decide,
    C10_determinism_amended _ _ (by decide) (by decide) (by decide)⟩
